import Mathlib

/-!
# Shallow embedding of the `ic-certified-assets` canister core

This development models `src/ic-certified-assets/src/lib.rs`: a certified
static-asset store for the Internet Computer.  Rust `HashMap`s become
association lists (`lookupA` / `insertA` / `eraseA`); machine integers become
`Nat` with explicit `% 2^64` where the Rust code can wrap; host traps
(`trap`, `expect`, panics) become `Except String` errors — the host discards
all state changes of a trapped message, so an `.error` result models "the
call fails and the state is unchanged".

External collaborators that the canister consumes (SHA-256, the red-black
Merkle-tree library's `witness`, CBOR and Base64 codecs, the host system API)
are out of scope of the source and are modelled symbolically, each marked
`Modelled from the spec:` in its doc comment.
-/

deriving instance DecidableEq for Except

namespace CertifiedAssets

/-! ## Association-list maps (model of Rust `HashMap` / `RbTree` as key-value maps) -/

/-- First value bound to `k`, like `HashMap::get`. -/
def lookupA {K V : Type} [DecidableEq K] (k : K) : List (K × V) → Option V
  | [] => none
  | (k1, v1) :: t => if k1 = k then some v1 else lookupA k t

/-- Bind `k` to `v`, replacing any previous binding, like `HashMap::insert`. -/
def insertA {K V : Type} [DecidableEq K] (k : K) (v : V) (l : List (K × V)) :
    List (K × V) :=
  (k, v) :: l.filter (fun p => p.1 ≠ k)

/-- Remove every binding of `k`, like `HashMap::remove`. -/
def eraseA {K V : Type} [DecidableEq K] (k : K) (l : List (K × V)) : List (K × V) :=
  l.filter (fun p => p.1 ≠ k)

/-! ## Bytes, characters and helper string routines

The Rust code works on `&str` / `&[u8]`.  We model raw byte strings as
`List Nat` (each element `< 256`) and character strings as Lean `String`,
processing their underlying `List Char` with hand-rolled structural
functions so that all definitions compute by kernel reduction. -/

/-- UTF-8 encoding of one scalar value (model of Rust `str` byte access). -/
def utf8Bytes (c : Char) : List Nat :=
  let n := c.toNat
  if n < 0x80 then [n]
  else if n < 0x800 then [0xC0 ||| (n >>> 6), 0x80 ||| (n &&& 0x3F)]
  else if n < 0x10000 then
    [0xE0 ||| (n >>> 12), 0x80 ||| ((n >>> 6) &&& 0x3F), 0x80 ||| (n &&& 0x3F)]
  else
    [0xF0 ||| (n >>> 18), 0x80 ||| ((n >>> 12) &&& 0x3F),
     0x80 ||| ((n >>> 6) &&& 0x3F), 0x80 ||| (n &&& 0x3F)]

/-- The UTF-8 bytes of a string, i.e. Rust `str::as_bytes`. -/
def strBytes (s : String) : List Nat := s.data.flatMap utf8Bytes

/-- ASCII lower-casing of a character (for `eq_ignore_ascii_case`). -/
def asciiLower (c : Char) : Char :=
  if 65 ≤ c.toNat ∧ c.toNat ≤ 90 then Char.ofNat (c.toNat + 32) else c

/-- Rust `str::eq_ignore_ascii_case`. -/
def eqIgnoreAsciiCase (a b : String) : Bool :=
  a.data.map asciiLower = b.data.map asciiLower

/-- Whitespace test used by Rust `str::trim` (ASCII fragment). -/
def isWsChar (c : Char) : Bool :=
  c = ' ' ∨ c = '\t' ∨ c = '\n' ∨ c = '\r'

/-- Rust `str::trim` on the character list level. -/
def trimChars (l : List Char) : List Char :=
  ((l.dropWhile isWsChar).reverse.dropWhile isWsChar).reverse

/-- Rust `str::split(sep)` for a one-character separator: the list of
(possibly empty) segments between occurrences of `sep`. -/
def splitOnChar (sep : Char) : List Char → List (List Char)
  | [] => [[]]
  | c :: rest =>
    if c = sep then [] :: splitOnChar sep rest
    else
      match splitOnChar sep rest with
      | g :: gs => (c :: g) :: gs
      | [] => [[c]]

/-- Rust `str::replace("bytes=", "")`: removes every non-overlapping
occurrence of the six characters `bytes=`, scanning left to right. -/
def stripBytesEq : List Char → List Char
  | 'b' :: 'y' :: 't' :: 'e' :: 's' :: '=' :: rest => stripBytesEq rest
  | c :: rest => c :: stripBytesEq rest
  | [] => []

/-- Decimal digit value of a character, if any. -/
def digitVal (c : Char) : Option Nat :=
  if 48 ≤ c.toNat ∧ c.toNat ≤ 57 then some (c.toNat - 48) else none

/-- Value of a non-empty all-digit character list. -/
def digitsVal : List Char → Option Nat
  | [] => none
  | l => go l 0
where
  go : List Char → Nat → Option Nat
    | [], acc => some acc
    | c :: t, acc =>
      match digitVal c with
      | some d => go t (acc * 10 + d)
      | none => none

/-- 2^64, the modulus of Rust `u64` arithmetic. -/
def U64MOD : Nat := 18446744073709551616

/-- Rust `str::parse::<u64>`: an optional leading `+`, then a non-empty
digit string whose value fits in 64 bits. -/
def parseU64 (l : List Char) : Option Nat :=
  let t := match l with
    | '+' :: rest => rest
    | _ => l
  match digitsVal t with
  | some n => if n < U64MOD then some n else none
  | none => none

/-! ## Digests

`Modelled from the spec:` SHA-256 and the Merkle root hash are external
primitives ("SHA-256 primitive" and "the red-black Merkle-tree library
(treated as an abstract ordered map with `witness` and `root_hash`)" are out
of scope).  A digest is represented as a tagged byte list; the encodings are
injective by construction, mirroring collision resistance, and caller-supplied
digests are arbitrary lists, so a caller can still supply a digest equal to a
computed one. -/

/-- A digest value. -/
abbrev Hash := List Nat

/-- `Modelled from the spec:` the SHA-256 of a byte string, symbolically. -/
def hash_bytes (bs : List Nat) : Hash := 0 :: bs

/-- Length-prefixed encoding of sorted key/digest entries (injective). -/
def encodeEntries : List (String × Hash) → List Nat
  | [] => []
  | (k, v) :: t =>
    k.length :: (k.data.map Char.toNat) ++ v.length :: v ++ encodeEntries t

/-- Lexicographic order on character lists (the ordered Merkle map keeps its
keys in lexicographic order). -/
def charListLt : List Char → List Char → Bool
  | [], [] => false
  | [], _ :: _ => true
  | _ :: _, [] => false
  | a :: as, b :: bs =>
    if a.toNat < b.toNat then true
    else if b.toNat < a.toNat then false
    else charListLt as bs

/-- Key order used to canonicalize entry lists. -/
def strLt (a b : String) : Bool := charListLt a.data b.data

/-- Insert into a key-sorted entry list. -/
def insertSorted (p : String × Hash) : List (String × Hash) → List (String × Hash)
  | [] => [p]
  | q :: t => if strLt p.1 q.1 then p :: q :: t else q :: insertSorted p t

/-- Sort entries by key (the ordered Merkle map stores keys in order, so its
root hash depends only on the key-sorted contents). -/
def sortKeys : List (String × Hash) → List (String × Hash)
  | [] => []
  | p :: t => insertSorted p (sortKeys t)

/-- `Modelled from the spec:` `RbTree::root_hash` of a key/digest map. -/
def root_hash (t : List (String × Hash)) : Hash := 2 :: encodeEntries (sortKeys t)

/-- `Modelled from the spec:` `labeled_hash(b"http_assets", root)`. -/
def labeled_hash (root : Hash) : Hash := 3 :: root

/-! ## Data model (structs of `lib.rs`) -/

/-- The amount of time a batch is kept alive, in nanoseconds. -/
def BATCH_EXPIRY_NANOS : Nat := 300000000000

/-- The order in which encodings are picked for certification. -/
def ENCODING_CERTIFICATION_ORDER : List String :=
  ["identity", "gzip", "compress", "deflate", "br"]

/-- The file to serve if the requested file was not found. -/
def INDEX_FILE : String := "/index.html"

/-- Caller identities (`candid::Principal`), abstracted to numbers. -/
abbrev Principal := Nat

/-- One stored segment of an encoding (`ContentChunk`).  `content` models the
reference-counted byte buffer `RcBytes` as its byte list. -/
structure ContentChunk where
  content : List Nat
  start_byte : Nat
  end_byte : Nat
  sha256 : Hash
deriving DecidableEq

/-- One content representation of an asset (`AssetEncoding`).  `modified` is
`time()` in nanoseconds (a `u64`, hence `Nat`). -/
structure AssetEncoding where
  modified : Nat
  content_chunks : List ContentChunk
  total_length : Nat
  certified : Bool
  sha256 : Hash
deriving DecidableEq

/-- `Default for AssetEncoding` (used by `entry().or_default()`). -/
def AssetEncoding.default : AssetEncoding :=
  { modified := 0, content_chunks := [], total_length := 0,
    certified := false, sha256 := [] }

/-- An asset: content type plus a map from encoding name to encoding. -/
structure Asset where
  content_type : String
  encodings : List (String × AssetEncoding)
deriving DecidableEq

/-- A staged pre-commit chunk. -/
structure Chunk where
  batch_id : Nat
  content : List Nat
  sha256 : Hash
deriving DecidableEq

/-- A transient upload batch. -/
structure Batch where
  expires_at : Nat
deriving DecidableEq

structure CreateAssetArguments where
  key : String
  content_type : String
deriving DecidableEq

structure SetAssetContentArguments where
  key : String
  content_encoding : String
  chunk_ids : List Nat
  sha256 : Option Hash
deriving DecidableEq

structure UnsetAssetContentArguments where
  key : String
  content_encoding : String
deriving DecidableEq

structure DeleteAssetArguments where
  key : String
deriving DecidableEq

inductive BatchOperation where
  | CreateAsset (arg : CreateAssetArguments)
  | SetAssetContent (arg : SetAssetContentArguments)
  | UnsetAssetContent (arg : UnsetAssetContentArguments)
  | DeleteAsset (arg : DeleteAssetArguments)
  | Clear
deriving DecidableEq

structure CommitBatchArguments where
  batch_id : Nat
  operations : List BatchOperation
deriving DecidableEq

structure StoreArg where
  key : String
  content_type : String
  content_encoding : String
  content : List Nat
  sha256 : Option Hash
deriving DecidableEq

structure CreateChunkArg where
  batch_id : Nat
  content : List Nat
  sha256 : Option Hash
deriving DecidableEq

/-- The whole canister state: the `State` struct together with the
`ASSET_HASHES` and `CHUNK_HASHES` thread-locals and the certified data last
pushed to the host via `set_certified_data`. -/
structure St where
  assets : List (String × Asset)
  chunks : List (Nat × Chunk)
  next_chunk_id : Nat
  batches : List (Nat × Batch)
  next_batch_id : Nat
  authorized : List Principal
  asset_hashes : List (String × Hash)
  chunk_hashes : List (String × List (String × Hash))
  certified_data : Hash
deriving DecidableEq

/-- `State::default()` plus empty trees. -/
def emptySt : St :=
  { assets := [], chunks := [], next_chunk_id := 0, batches := [],
    next_batch_id := 0, authorized := [], asset_hashes := [],
    chunk_hashes := [], certified_data := [] }

/-- The state persisted across upgrades (`StableState`). -/
structure StableState where
  authorized : List Principal
  stable_assets : List (String × Asset)
deriving DecidableEq

/-! ## Certification engine (`on_asset_change` and friends) -/

/-- Forget the `certified` flag of an encoding. -/
def stripCert (e : AssetEncoding) : AssetEncoding := { e with certified := false }

/-- Clear the `certified` flag on every encoding of the map
(`for enc in asset.encodings.values_mut() { enc.certified = false; }`). -/
def clearFlags : List (String × AssetEncoding) → List (String × AssetEncoding)
  | [] => []
  | p :: t => (p.1, stripCert p.2) :: clearFlags t

/-- The first encoding present in `ENCODING_CERTIFICATION_ORDER` — the
encoding both `for` loops over the order in `on_asset_change` stop at. -/
def priorityFirst (encs : List (String × AssetEncoding)) :
    Option (String × AssetEncoding) :=
  ENCODING_CERTIFICATION_ORDER.findSome?
    (fun n => (lookupA n encs).map (fun e => (n, e)))

/-- `set_root_hash`: publish `labeled_hash(b"http_assets", root)` as the
canister's certified data. -/
def set_root_hash (s : St) : St :=
  { s with certified_data := labeled_hash (root_hash s.asset_hashes) }

/-- `certify_asset`: record the digest under the key and republish the root. -/
def certify_asset (key : String) (content_hash : Hash) (s : St) : St :=
  set_root_hash { s with asset_hashes := insertA key content_hash s.asset_hashes }

/-- `delete_asset_hash`: drop the key and republish the root. -/
def delete_asset_hash (key : String) (s : St) : St :=
  set_root_hash { s with asset_hashes := eraseA key s.asset_hashes }

/-- `delete_chunks`: drop the per-asset chunk-hash tree. -/
def delete_chunks (key : String) (s : St) : St :=
  { s with chunk_hashes := eraseA key s.chunk_hashes }

/-- The insertion loop of `set_chunks_to_tree`: insert `(decimal i → digest)`
for each chunk, but only when the index is not already present. -/
def addChunkHashes : List (String × Hash) → Nat → List ContentChunk →
    List (String × Hash)
  | tree, _, [] => tree
  | tree, i, c :: rest =>
    addChunkHashes
      (if (lookupA (toString i) tree).isSome then tree
       else insertA (toString i) c.sha256 tree)
      (i + 1) rest

/-- `set_chunks_to_tree`: ensure the asset has a chunk-hash tree and insert
the chunks' digests at indices that are still absent. -/
def set_chunks_to_tree (key : String) (content_chunks : List ContentChunk)
    (s : St) : St :=
  let tree := (lookupA key s.chunk_hashes).getD []
  { s with chunk_hashes := insertA key (addChunkHashes tree 0 content_chunks) s.chunk_hashes }

/-- The re-certification tail of `on_asset_change` (everything after the
early-return check). -/
def on_asset_change_recert (key : String) (asset : Asset) (s : St) :
    Asset × St :=
  if asset.encodings.isEmpty then
    (asset, delete_chunks key (delete_asset_hash key s))
  else
    let encs := clearFlags asset.encodings
    match priorityFirst encs with
    | some (n, enc) =>
      let s := certify_asset key enc.sha256 s
      let encs := insertA n { enc with certified := true } encs
      let s := set_chunks_to_tree key enc.content_chunks s
      ({ asset with encodings := encs }, s)
    | none =>
      -- no known encoding: pick the first one in the (arbitrary) map order
      match encs with
      | (n, enc) :: _ =>
        let s := certify_asset key enc.sha256 s
        let encs2 := insertA n { enc with certified := true } encs
        let s := set_chunks_to_tree key enc.content_chunks s
        ({ asset with encodings := encs2 }, s)
      | [] => ({ asset with encodings := encs }, s)

/-- `on_asset_change`: if the most preferred encoding present is already
certified there is nothing to do, otherwise re-certify. -/
def on_asset_change (key : String) (asset : Asset) (s : St) : Asset × St :=
  match priorityFirst asset.encodings with
  | some (_, enc) =>
    if enc.certified then (asset, s) else on_asset_change_recert key asset s
  | none => on_asset_change_recert key asset s

/-! ## Mutating operations -/

/-- `do_create_asset`. -/
def do_create_asset (arg : CreateAssetArguments) (s : St) : Except String St :=
  match lookupA arg.key s.assets with
  | some asset =>
    if asset.content_type ≠ arg.content_type then
      .error "create_asset: content type mismatch"
    else .ok s
  | none =>
    let fresh : Asset := { content_type := arg.content_type, encodings := [] }
    .ok { s with assets := insertA arg.key fresh s.assets }

/-- The chunk-consuming loop of `do_set_asset_content`: each id is removed
from the chunk table as it is used, so a reused or unknown id fails. -/
def takeChunks : List Nat → List (Nat × Chunk) →
    Except String (List Chunk × List (Nat × Chunk))
  | [], m => .ok ([], m)
  | cid :: rest, m =>
    match lookupA cid m with
    | some c => do
      let (cs, m2) ← takeChunks rest (eraseA cid m)
      .ok (c :: cs, m2)
    | none => .error "chunk not found"

/-- Assemble `ContentChunk`s with the running `reduced_total` offset; the
`u64` arithmetic `reduced_total + len - 1` wraps modulo `2^64`. -/
def buildChunks : Nat → List Chunk → List ContentChunk
  | _, [] => []
  | reduced_total, c :: rest =>
    { content := c.content, start_byte := reduced_total,
      end_byte := (reduced_total + c.content.length + (U64MOD - 1)) % U64MOD,
      sha256 := c.sha256 } ::
    buildChunks ((reduced_total + c.content.length) % U64MOD) rest

/-- The final value of `reduced_total` over the chunk list. -/
def chunksTotal (cs : List Chunk) : Nat :=
  cs.foldl (fun acc c => (acc + c.content.length) % U64MOD) 0

/-- The encoding `do_set_asset_content` builds: the assembled chunks,
`modified = now`, `certified = false`, and the chosen digest. -/
def set_content_encoding (now : Nat) (cs : List Chunk) (sha256 : Hash) :
    AssetEncoding :=
  { modified := now, content_chunks := buildChunks 0 cs, certified := false,
    total_length := chunksTotal cs, sha256 := sha256 }

/-- The state update at the end of `do_set_asset_content`: insert the
encoding and run `on_asset_change`. -/
def set_content_write (now : Nat) (arg : SetAssetContentArguments) (a : Asset)
    (cs : List Chunk) (sha256 : Hash) (s : St) : St :=
  let enc := set_content_encoding now cs sha256
  let encodings := insertA arg.content_encoding enc a.encodings
  let asset : Asset := { a with encodings := encodings }
  let r := on_asset_change arg.key asset s
  { r.2 with assets := insertA arg.key r.1 r.2.assets }

/-- `do_set_asset_content`. -/
def do_set_asset_content (now : Nat) (arg : SetAssetContentArguments) (s : St) :
    Except String St := do
  if arg.chunk_ids.isEmpty then .error "encoding must have at least one chunk"
  else
    match lookupA arg.key s.assets with
    | none => .error "asset not found"
    | some asset => do
      let (chunkList, chunks2) ← takeChunks arg.chunk_ids s.chunks
      let content_chunks := buildChunks 0 chunkList
      let s := { s with chunks := chunks2 }
      match arg.sha256 with
      | some bytes => .ok (set_content_write now arg asset chunkList bytes s)
      | none =>
        let s := set_chunks_to_tree arg.key content_chunks s
        match lookupA arg.key s.chunk_hashes with
        | some tree => .ok (set_content_write now arg asset chunkList (root_hash tree) s)
        | none => .error "asset not found in chunks map"

/-- `do_unset_asset_content`. -/
def do_unset_asset_content (arg : UnsetAssetContentArguments) (s : St) :
    Except String St :=
  match lookupA arg.key s.assets with
  | none => .error "asset not found"
  | some asset =>
    if (lookupA arg.content_encoding asset.encodings).isSome then
      let asset := { asset with encodings := eraseA arg.content_encoding asset.encodings }
      let r := on_asset_change arg.key asset s
      .ok { r.2 with assets := insertA arg.key r.1 r.2.assets }
    else .ok s

/-- `do_delete_asset`: removes the asset and its asset-hash entry (and,
notably, nothing else). -/
def do_delete_asset (arg : DeleteAssetArguments) (s : St) : St :=
  delete_asset_hash arg.key { s with assets := eraseA arg.key s.assets }

/-- `do_clear`. -/
def do_clear (s : St) : St :=
  { s with
    assets := [], batches := [], chunks := [],
    next_batch_id := 1, next_chunk_id := 1 }

/-- The asset `store` starts from: the existing entry or a default, with the
content type overwritten. -/
def store_base_asset (arg : StoreArg) (s : St) : Asset :=
  let asset := (lookupA arg.key s.assets).getD { content_type := "", encodings := [] }
  { asset with content_type := arg.content_type }

/-- The encoding `store` writes: one chunk covering the whole content, with
the `u64` arithmetic `total_length - 1` wrapping modulo `2^64`. -/
def store_encoding (now : Nat) (arg : StoreArg) (s : St) : AssetEncoding :=
  let asset := store_base_asset arg s
  let hash := hash_bytes arg.content
  let encoding := (lookupA arg.content_encoding asset.encodings).getD AssetEncoding.default
  { encoding with
    total_length := arg.content.length
    content_chunks :=
      [{ content := arg.content, start_byte := 0,
         end_byte := (arg.content.length + (U64MOD - 1)) % U64MOD,
         sha256 := hash }]
    modified := now
    sha256 := hash }

/-- The asset after `store`'s field updates. -/
def store_asset (now : Nat) (arg : StoreArg) (s : St) : Asset :=
  let asset := store_base_asset arg s
  let encodings := insertA arg.content_encoding (store_encoding now arg s) asset.encodings
  { asset with encodings := encodings }

/-- The state a successful `store` leaves behind (field updates followed by
`on_asset_change`). -/
def store_write (now : Nat) (arg : StoreArg) (s : St) : St :=
  let r := on_asset_change arg.key (store_asset now arg s) s
  { r.2 with assets := insertA arg.key r.1 r.2.assets }

/-- `store` (single-call upload path): verify a supplied digest against a
fresh hash of the content — mismatch traps, discarding the updates — and
otherwise write the one-chunk encoding and re-certify. -/
def store (now : Nat) (arg : StoreArg) (s : St) : Except String St :=
  let hash := hash_bytes arg.content
  match arg.sha256 with
  | some provided_hash =>
    if hash ≠ provided_hash then .error "sha256 mismatch"
    else .ok (store_write now arg s)
  | none => .ok (store_write now arg s)

/-- `create_batch`: allocates an id and garbage-collects expired chunks and
batches.  Returns the new state and the batch id. -/
def create_batch (now : Nat) (s : St) : St × Nat :=
  let batch_id := s.next_batch_id
  let batches := insertA batch_id { expires_at := now + BATCH_EXPIRY_NANOS } s.batches
  let chunks := s.chunks.filter (fun p =>
    match lookupA p.2.batch_id batches with
    | some b => b.expires_at > now
    | none => false)
  let batches := batches.filter (fun p => p.2.expires_at > now)
  ({ s with next_batch_id := batch_id + 1, batches := batches, chunks := chunks },
   batch_id)

/-- `create_chunk`.  (The 32-byte length check of a caller-supplied digest is
not modelled, digests being symbolic.) -/
def create_chunk (now : Nat) (arg : CreateChunkArg) (s : St) :
    Except String (St × Nat) :=
  match lookupA arg.batch_id s.batches with
  | none => .error "batch not found"
  | some _ =>
    let batches := insertA arg.batch_id { expires_at := now + BATCH_EXPIRY_NANOS } s.batches
    let chunk_id := s.next_chunk_id
    let sha256 := match arg.sha256 with
      | some bytes => bytes
      | none => hash_bytes arg.content
    let chunk : Chunk :=
      { batch_id := arg.batch_id, content := arg.content, sha256 := sha256 }
    .ok ({ s with
           batches := batches, next_chunk_id := chunk_id + 1,
           chunks := insertA chunk_id chunk s.chunks },
         chunk_id)

/-- One operation of a `commit_batch` log. -/
def applyBatchOp (now : Nat) : BatchOperation → St → Except String St
  | .CreateAsset a => do_create_asset a
  | .SetAssetContent a => do_set_asset_content now a
  | .UnsetAssetContent a => do_unset_asset_content a
  | .DeleteAsset a => fun s => .ok (do_delete_asset a s)
  | .Clear => fun s => .ok (do_clear s)

/-- The operation-replay loop of `commit_batch`. -/
def applyBatchOps (now : Nat) : List BatchOperation → St → Except String St
  | [], s => .ok s
  | op :: rest, s => do applyBatchOps now rest (← applyBatchOp now op s)

/-- `commit_batch`: replay the log, then drop the batch. -/
def commit_batch (now : Nat) (arg : CommitBatchArguments) (s : St) :
    Except String St := do
  let s ← applyBatchOps now arg.operations s
  .ok { s with batches := eraseA arg.batch_id s.batches }

/-! ## Authorization, init, upgrade -/

/-- The `is_authorized` guard. -/
def is_authorized (caller : Principal) (s : St) : Except String Unit :=
  if s.authorized.contains caller then .ok ()
  else .error "Caller is not authorized"

/-- `authorize`: note there is no guard and no rejection — an unauthorized
caller silently changes nothing. -/
def authorize (caller : Principal) (other : Principal) (s : St) : St :=
  if s.authorized.contains caller then
    { s with authorized := s.authorized ++ [other] }
  else s

/-- `init`: clear and authorize the creator. -/
def init (creator : Principal) : St :=
  { do_clear emptySt with authorized := [creator] }

/-- The per-asset loop of `post_upgrade`: clear every `certified` flag, then
run `on_asset_change`, threading the trees through. -/
def processAssets : List (String × Asset) → St → List (String × Asset) × St
  | [], s => ([], s)
  | (k, a) :: rest, s =>
    let a0 : Asset := { a with encodings := clearFlags a.encodings }
    let r := on_asset_change k a0 s
    let r2 := processAssets rest r.2
    ((k, r.1) :: r2.1, r2.2)

/-- `post_upgrade`. -/
def post_upgrade (stable_state : StableState) (s : St) : St :=
  let s := do_clear s
  let s := { s with authorized := stable_state.authorized,
                    assets := stable_state.stable_assets }
  let r := processAssets stable_state.stable_assets s
  { r.2 with assets := r.1 }

/-! ## URL decoder (`UrlDecode`, `convert_percent`, `url_decode`) -/

inductive UrlDecodeError where
  | InvalidPercentEncoding
deriving DecidableEq

/-- `char::from(b).to_digit(16)`. -/
def hexDigit (b : Nat) : Option Nat :=
  if 48 ≤ b ∧ b ≤ 57 then some (b - 48)
  else if 97 ≤ b ∧ b ≤ 102 then some (b - 87)
  else if 65 ≤ b ∧ b ≤ 70 then some (b - 55)
  else none

/-- `convert_percent`: the bytes consumed after a `%`, returning the decoded
byte and the rest of the input; `None` on malformed input. -/
def convert_percent : List Nat → Option (Nat × List Nat)
  | [] => none
  | b :: rest =>
    if b = 37 then some (37, rest)
    else
      match hexDigit b with
      | none => none
      | some h =>
        match rest with
        | [] => none
        | c :: rest2 =>
          match hexDigit c with
          | none => none
          | some l => some (h * 16 + l, rest2)

/-- `url_decode` over the input bytes.  The iterator of the source is
flattened into one structural recursion; `url_decode_percent_step` below shows
the `%` branch agrees with `convert_percent`. -/
def url_decode : List Nat → Except UrlDecodeError (List Char)
  | [] => .ok []
  | b :: bs =>
    if b = 37 then
      match bs with
      | [] => .error .InvalidPercentEncoding
      | c :: bs2 =>
        if c = 37 then (url_decode bs2).map (fun t => '%' :: t)
        else
          match hexDigit c with
          | none => .error .InvalidPercentEncoding
          | some h =>
            match bs2 with
            | [] => .error .InvalidPercentEncoding
            | d :: bs3 =>
              match hexDigit d with
              | none => .error .InvalidPercentEncoding
              | some l => (url_decode bs3).map (fun t => Char.ofNat (h * 16 + l) :: t)
    else if b = 43 then (url_decode bs).map (fun t => ' ' :: t)
    else (url_decode bs).map (fun t => Char.ofNat b :: t)

/-! ## Range parser (`get_ranges`) -/

structure Range where
  start_byte : Nat
  end_byte : Option Nat
deriving DecidableEq

structure ContentRange where
  start_byte : Nat
  end_byte : Nat
  index : Nat
  total : Nat
deriving DecidableEq

/-- The per-segment closure of `get_ranges`: strip `bytes=`, split on `-`,
trim, and parse the two sides as `u64`. -/
def parseRangeSeg (seg : List Char) : Option Range :=
  let replaced := stripBytesEq seg
  let parts := (splitOnChar '-' replaced).map trimChars
  match parts.get? 0, parts.get? 1 with
  | some a, some b =>
    match parseU64 a, parseU64 b with
    | some sb, some eb => some { start_byte := sb, end_byte := some eb }
    | some sb, none => some { start_byte := sb, end_byte := none }
    | _, _ => none
  | _, _ => none

/-- `collect::<Option<Vec<Range>>>`: left-to-right, short-circuiting on the
first failing segment. -/
def collectRanges : List (List Char) → Option (List Range)
  | [] => some []
  | seg :: rest =>
    match parseRangeSeg seg with
    | some r => (collectRanges rest).map (fun rs => r :: rs)
    | none => none

/-- `get_ranges`: split the header on `,` and parse every segment;
the `collect` makes parsing all-or-nothing. -/
def get_ranges (v : String) : Option (List Range) :=
  collectRanges (splitOnChar ',' v.data)

/-! ## Hash trees, witnesses, certificate header -/

/-- The `ic_certified_map::HashTree` shape. -/
inductive HashTree where
  | Empty
  | Fork (l r : HashTree)
  | Labeled (label : List Nat) (t : HashTree)
  | Leaf (v : Hash)
  | Pruned (h : Hash)
deriving DecidableEq

/-- `merge_hash_trees`, arm for arm from the source. -/
def merge_hash_trees : HashTree → HashTree → Except String HashTree
  | .Pruned l, .Pruned r =>
    if l ≠ r then .error "merge_hash_trees: inconsistent hashes"
    else .ok (.Pruned l)
  | .Pruned _, r => .ok r
  | l, .Pruned _ => .ok l
  | .Fork l1 l2, .Fork r1 r2 => do
    .ok (.Fork (← merge_hash_trees l1 r1) (← merge_hash_trees l2 r2))
  | .Labeled ll l, .Labeled rl r =>
    if ll ≠ rl then .error "merge_hash_trees: inconsistent hash tree labels"
    else do .ok (.Labeled ll (← merge_hash_trees l r))
  | .Empty, .Empty => .ok .Empty
  | .Leaf l, .Leaf r =>
    if l ≠ r then .error "merge_hash_trees: inconsistent leaves"
    else .ok (.Leaf l)
  | _, _ => .error "merge_hash_trees: inconsistent tree structure"

/-- One node of a symbolic witness: the sought key is exposed, every other
entry is pruned. -/
def witnessNode (k : String) (kv : String × Hash) : HashTree :=
  if kv.1 = k then .Labeled (strBytes kv.1) (.Leaf kv.2)
  else .Pruned (1 :: encodeEntries [kv])

/-- Right-leaning fork spine over a node list. -/
def listToForks : List HashTree → HashTree
  | [] => .Empty
  | [t] => t
  | t :: rest => .Fork t (listToForks rest)

/-- `Modelled from the spec:` `RbTree::witness` of the external Merkle-map
library ("a pruned Merkle witness for either presence or absence of `k`").
The spine is the key-sorted entry list, so witnesses of the same tree merge
without conflicts, as the library's witnesses do. -/
def witness (t : List (String × Hash)) (k : String) : HashTree :=
  listToForks ((sortKeys t).map (witnessNode k))

/-- `Modelled from the spec:` base64 (an external codec), as a plain
rendering. -/
def base64 (bs : List Nat) : String := toString bs

/-- `Modelled from the spec:` `serialize_tree` CBOR-encodes and base64-encodes
a hash tree (external codecs); modelled as an injective structural rendering. -/
def serialize_tree : HashTree → String
  | .Empty => "E"
  | .Fork l r => "F(" ++ serialize_tree l ++ "," ++ serialize_tree r ++ ")"
  | .Labeled lab t => "L(" ++ toString lab ++ "," ++ serialize_tree t ++ ")"
  | .Leaf v => "V(" ++ toString v ++ ")"
  | .Pruned h => "P(" ++ toString h ++ ")"

/-- `get_serialized_chunk_witness`: traps when the key has no chunk-hash
tree; serializes a witness when the index is present, else returns `""`. -/
def get_serialized_chunk_witness (key : String) (index : Nat) (s : St) :
    Except String String :=
  match lookupA key s.chunk_hashes with
  | none => .error "asset not found in chunks map"
  | some tree =>
    if (lookupA (toString index) tree).isSome then
      .ok (serialize_tree (witness tree (toString index)))
    else .ok ""

/-- `witness_to_header`.  `cert` is `data_certificate()`: available in query
calls, absent elsewhere. -/
def witness_to_header (cert : Option (List Nat)) (w : HashTree)
    (chunk_serialized_tree : String) (chunk_index : Nat) :
    Except String (String × String) :=
  let hash_tree := HashTree.Labeled (strBytes "http_assets") w
  let tree := serialize_tree hash_tree
  match cert with
  | none => .error "no data certificate available"
  | some certificate =>
    .ok ("IC-Certificate",
      "certificate=:" ++ base64 certificate ++ ":, tree=:" ++ tree ++
      ":, chunk_tree=:" ++ chunk_serialized_tree ++ ":, chunk_index=:" ++
      toString chunk_index ++ ":")

/-! ## HTTP resolver -/

structure HttpRequest where
  method : String
  url : String
  headers : List (String × String)
  body : List Nat
deriving DecidableEq

structure StreamingCallbackToken where
  key : String
  content_encoding : String
  index : Nat
  sha256 : Option Hash
deriving DecidableEq

inductive StreamingStrategy where
  | Callback (callbackMethod : String) (token : StreamingCallbackToken)
deriving DecidableEq

structure HttpResponse where
  status_code : Nat
  headers : List (String × String)
  body : List Nat
  streaming_strategy : Option StreamingStrategy
deriving DecidableEq

/-- Rust `Vec` indexing: a panic (trap) when out of bounds. -/
def listGetE {α : Type} (l : List α) (i : Nat) : Except String α :=
  match l.get? i with
  | some x => .ok x
  | none => .error "panic: index out of bounds"

/-- `create_token` (the `_asset` parameter is unused in the source too). -/
def create_token (_asset : Asset) (enc_name : String) (enc : AssetEncoding)
    (key : String) (chunk_index : Nat) : Option StreamingCallbackToken :=
  if chunk_index + 1 ≥ enc.content_chunks.length then none
  else
    some { key := key, content_encoding := enc_name, index := chunk_index + 1,
           sha256 := some enc.sha256 }

/-- `create_strategy`. -/
def create_strategy (asset : Asset) (enc_name : String) (enc : AssetEncoding)
    (key : String) (chunk_index : Nat) : Option StreamingStrategy :=
  (create_token asset enc_name enc key chunk_index).map
    (fun token => .Callback "http_request_streaming_callback" token)

/-- `build_200`. -/
def build_200 (asset : Asset) (enc_name : String) (enc : AssetEncoding)
    (key : String) (chunk_index : Nat)
    (certificate_header : Option (String × String)) :
    Except String HttpResponse := do
  let headers := [("Content-Type", asset.content_type)]
  let headers :=
    if enc_name ≠ "identity" then headers ++ [("Content-Encoding", enc_name)]
    else headers
  let headers :=
    match certificate_header with
    | some head => headers ++ [head]
    | none => headers
  let chunk ← listGetE enc.content_chunks chunk_index
  .ok { status_code := 200, headers := headers, body := chunk.content,
        streaming_strategy := create_strategy asset enc_name enc key chunk_index }

/-- `build_206`. -/
def build_206 (asset : Asset) (enc_name : String) (enc : AssetEncoding)
    (key : String) (range : ContentRange)
    (certificate_header : Option (String × String)) :
    Except String HttpResponse := do
  let headers := [("Content-Type", asset.content_type)]
  let headers :=
    if enc_name ≠ "identity" then headers ++ [("Content-Encoding", enc_name)]
    else headers
  let headers :=
    match certificate_header with
    | some head => headers ++ [head]
    | none => headers
  let headers := headers ++
    [("Content-Range",
      "bytes " ++ toString range.start_byte ++ "-" ++ toString range.end_byte ++
      "/" ++ toString range.total),
     ("Accept-Ranges", "bytes")]
  let chunk ← listGetE enc.content_chunks range.index
  .ok { status_code := 206, headers := headers, body := chunk.content,
        streaming_strategy := create_strategy asset enc_name enc key range.index }

/-- `build_404`. -/
def build_404 (certificate_header : String × String) : HttpResponse :=
  { status_code := 404, headers := [certificate_header],
    body := strBytes "not found", streaming_strategy := none }

/-- `get_chunk_index_by_range`, including its `FIXME` zero fallbacks and the
wrapping `u64` subtraction in the chunk search. -/
def get_chunk_index_by_range (range : Option Range) (encodings : List String)
    (asset : Option Asset) : ContentRange :=
  match range, asset with
  | some r, some asset =>
    let enc := encodings.find? (fun enc_name =>
      match lookupA enc_name asset.encodings with
      | some e =>
        if e.certified then true
        else
          match lookupA "identity" asset.encodings with
          | some id_enc => id_enc.certified
          | none => false
      | none => false)
    match lookupA (enc.getD "") asset.encodings with
    | some ae =>
      match ae.content_chunks.findIdx? (fun chunk =>
          (r.start_byte + U64MOD - chunk.start_byte % U64MOD) % U64MOD
            < chunk.content.length) with
      | some index =>
        match ae.content_chunks.get? index with
        | some c =>
          { start_byte := c.start_byte,
            end_byte := (c.start_byte + c.content.length + (U64MOD - 1)) % U64MOD,
            index := index, total := ae.total_length }
        | none => { start_byte := 0, end_byte := 0, index := 0, total := 0 }
      | none =>
        match ae.content_chunks.head? with
        | some first =>
          { start_byte := first.start_byte, end_byte := first.end_byte,
            index := 0, total := ae.total_length }
        | none => { start_byte := 0, end_byte := 0, index := 0, total := 0 }
    | none => { start_byte := 0, end_byte := 0, index := 0, total := 0 }
  | _, _ => { start_byte := 0, end_byte := 0, index := 0, total := 0 }

/-- The encoding-selection loop of the SPA branch: the first encoding of the
accept list that is present and certified. -/
def find_certified_enc (encodings : List String) (asset : Asset) :
    Option (String × AssetEncoding) :=
  encodings.findSome? (fun enc_name =>
    match lookupA enc_name asset.encodings with
    | some enc => if enc.certified then some (enc_name, enc) else none
    | none => none)

/-- The encoding-selection loop of direct resolution: the first encoding of
the accept list that is present and either certified itself or covered by a
certified `identity` encoding. -/
def find_serving_enc (encodings : List String) (asset : Asset) :
    Option (String × AssetEncoding) :=
  encodings.findSome? (fun enc_name =>
    match lookupA enc_name asset.encodings with
    | some enc =>
      if enc.certified then some (enc_name, enc)
      else
        match lookupA "identity" asset.encodings with
        | some id_enc =>
          if id_enc.certified then some (enc_name, enc) else none
        | none => none
    | none => none)

/-- `build_http_response`. -/
def build_http_response (cert : Option (List Nat)) (path : String)
    (encodings : List String) (range : Option Range) (s : St) :
    Except String HttpResponse := do
  let content_range := get_chunk_index_by_range range encodings (lookupA INDEX_FILE s.assets)
  let index_redirect_certificate ←
    if (lookupA path s.asset_hashes).isNone &&
       (lookupA INDEX_FILE s.asset_hashes).isSome then do
      let chunk_tree ← get_serialized_chunk_witness path content_range.index s
      let absence_proof := witness s.asset_hashes path
      let index_proof := witness s.asset_hashes INDEX_FILE
      let combined_proof ← merge_hash_trees absence_proof index_proof
      let hdr ← witness_to_header cert combined_proof chunk_tree content_range.index
      pure (some hdr)
    else pure none
  let spaResp : Option (Except String HttpResponse) :=
    match index_redirect_certificate with
    | some certificate_header =>
      match lookupA INDEX_FILE s.assets with
      | some asset =>
        match find_certified_enc encodings asset with
        | some (enc_name, enc) =>
          some (if range.isSome then
                  build_206 asset enc_name enc path content_range (some certificate_header)
                else
                  build_200 asset enc_name enc INDEX_FILE content_range.index
                    (some certificate_header))
        | none => none
      | none => none
    | none => none
  match spaResp with
  | some r => r
  | none => do
    let content_range := get_chunk_index_by_range range encodings (lookupA path s.assets)
    let chunk_tree ← get_serialized_chunk_witness path content_range.index s
    let certificate_header ←
      witness_to_header cert (witness s.asset_hashes path) chunk_tree content_range.index
    match lookupA path s.assets with
    | some asset =>
      match find_serving_enc encodings asset with
      | some (enc_name, enc) =>
        if range.isSome then
          build_206 asset enc_name enc path content_range (some certificate_header)
        else
          build_200 asset enc_name enc path content_range.index (some certificate_header)
      | none => pure (build_404 certificate_header)
    | none => pure (build_404 certificate_header)

/-- The range extraction of `http_request`: parse the header and keep only
`ranges[0]` (a panic if `get_ranges` ever returned an empty list). -/
def http_range (range_header_value : String) : Except String (Option Range) :=
  match get_ranges range_header_value with
  | some ranges => do
    let r0 ← listGetE ranges 0
    pure (some { start_byte := r0.start_byte, end_byte := r0.end_byte : Range })
  | none => pure none

/-- `http_request`: header scanning, range extraction (only `ranges[0]` is
kept), the implicit trailing `identity`, query-string stripping and URL
decoding. -/
def http_request (cert : Option (List Nat)) (req : HttpRequest) (s : St) :
    Except String HttpResponse := do
  let encodings := req.headers.foldl (fun acc p =>
    if eqIgnoreAsciiCase p.1 "Accept-Encoding" then
      acc ++ ((splitOnChar ',' p.2.data).map (fun v => String.mk (trimChars v)))
    else acc) []
  let range_header_value := req.headers.foldl (fun acc p =>
    if eqIgnoreAsciiCase p.1 "Range" then p.2 else acc) ""
  let range ← http_range range_header_value
  let encodings := encodings ++ ["identity"]
  let path := String.mk ((splitOnChar '?' req.url.data).headD [])
  match url_decode (strBytes path) with
  | .ok chars => build_http_response cert (String.mk chars) encodings range s
  | .error _ =>
    pure { status_code := 400, headers := [],
           body := strBytes ("failed to decode path '" ++ path ++
                             "': invalid percent encoding"),
           streaming_strategy := none }

/-! ## Public update entry points with the authorization guard -/

inductive UpdateCall where
  | authorizeU (other : Principal)
  | storeU (arg : StoreArg)
  | createBatchU
  | createChunkU (arg : CreateChunkArg)
  | createAssetU (arg : CreateAssetArguments)
  | setAssetContentU (arg : SetAssetContentArguments)
  | unsetAssetContentU (arg : UnsetAssetContentArguments)
  | deleteContentU (arg : DeleteAssetArguments)
  | clearU
  | commitBatchU (arg : CommitBatchArguments)
deriving DecidableEq

/-- All update methods carry `guard = "is_authorized"` except `authorize`. -/
def isGuarded : UpdateCall → Bool
  | .authorizeU _ => false
  | _ => true

/-- Dispatch of a public update call, with the guard where the source has
one.  An `.error` result models a rejected or trapped call: the host keeps
the old state. -/
def applyUpdate (caller : Principal) (now : Nat) : UpdateCall → St →
    Except String St
  | .authorizeU other, s => .ok (authorize caller other s)
  | .storeU arg, s => do is_authorized caller s; store now arg s
  | .createBatchU, s => do is_authorized caller s; .ok (create_batch now s).1
  | .createChunkU arg, s => do
    is_authorized caller s
    .ok (← create_chunk now arg s).1
  | .createAssetU arg, s => do is_authorized caller s; do_create_asset arg s
  | .setAssetContentU arg, s => do
    is_authorized caller s
    do_set_asset_content now arg s
  | .unsetAssetContentU arg, s => do
    is_authorized caller s
    do_unset_asset_content arg s
  | .deleteContentU arg, s => do is_authorized caller s; .ok (do_delete_asset arg s)
  | .clearU, s => do is_authorized caller s; .ok (do_clear s)
  | .commitBatchU arg, s => do is_authorized caller s; commit_batch now arg s

/-! ## Mutation sequences (for invariant statements) -/

inductive MutOp where
  | storeM (now : Nat) (arg : StoreArg)
  | createAssetM (arg : CreateAssetArguments)
  | setAssetContentM (now : Nat) (arg : SetAssetContentArguments)
  | unsetAssetContentM (arg : UnsetAssetContentArguments)
  | deleteAssetM (arg : DeleteAssetArguments)
  | clearM
  | createBatchM (now : Nat)
  | createChunkM (now : Nat) (arg : CreateChunkArg)
  | commitBatchM (now : Nat) (arg : CommitBatchArguments)
deriving DecidableEq

def applyMut : MutOp → St → Except String St
  | .storeM now arg, s => store now arg s
  | .createAssetM arg, s => do_create_asset arg s
  | .setAssetContentM now arg, s => do_set_asset_content now arg s
  | .unsetAssetContentM arg, s => do_unset_asset_content arg s
  | .deleteAssetM arg, s => .ok (do_delete_asset arg s)
  | .clearM, s => .ok (do_clear s)
  | .createBatchM now, s => .ok (create_batch now s).1
  | .createChunkM now arg, s => (create_chunk now arg s).map (fun p => p.1)
  | .commitBatchM now arg, s => commit_batch now arg s

def runOps : List MutOp → St → Except String St
  | [], s => .ok s
  | op :: rest, s => do runOps rest (← applyMut op s)

/-! ## The certification invariant -/

/-- The certified entries of an encoding map. -/
def certFilter (l : List (String × AssetEncoding)) :
    List (String × AssetEncoding) :=
  l.filter (fun p => p.2.certified)

/-- The encodings of the asset whose `certified` flag is set. -/
def certifiedList (a : Asset) : List (String × AssetEncoding) :=
  certFilter a.encodings

/-- Per-asset certification invariant: at most one encoding is certified;
when one is, it is the priority pick whenever some encoding of the fixed
order is present, and the asset-hash tree has an entry for the key. -/
def assetOk (tree : List (String × Hash)) (k : String) (a : Asset) : Bool :=
  match certifiedList a with
  | [] => true
  | [(n, _)] =>
    (match priorityFirst a.encodings with
     | some (pn, pe) => n = pn && pe.certified
     | none => true) && (lookupA k tree).isSome
  | _ => false

/-- State-wide certification invariant. -/
def stInv (s : St) : Bool :=
  s.assets.all (fun p => assetOk s.asset_hashes p.1 p.2)

/-- Key-distinctness of an association list (inherent in a Rust `HashMap`,
needed as a hypothesis when one is supplied from outside, as in
`post_upgrade`). -/
def keysND {K V : Type} [DecidableEq K] : List (K × V) → Bool
  | [] => true
  | (k, _) :: t => (lookupA k t).isNone && keysND t

/-! ## Claim-side definitions

These follow the wording of the specification (not the source) and are
compared against the source-derived definitions in the theorems below. -/

/-- Claim wording for C8: `%HH` decodes to the byte, `%%` to `%`, `+` to
space, anything else passes through; a `%` that is last, followed by fewer
than two characters, or followed by a non-hex character in either position
is invalid (with `%%` taking precedence).  `hasBadPercent` is that failure
condition. -/
def hasBadPercent : List Nat → Bool
  | [] => false
  | [37] => true
  | 37 :: 37 :: bs => hasBadPercent bs
  | [37, _] => true
  | 37 :: c :: d :: bs =>
    if (hexDigit c).isSome then
      if (hexDigit d).isSome then hasBadPercent bs else true
    else true
  | _ :: bs => hasBadPercent bs

/-- Claim wording for C9: the `bytes=` prefix is "stripped at most once per
segment" — i.e. a single leading occurrence is removed. -/
def stripOncePrefix (seg : List Char) : List Char :=
  if seg.take 6 = "bytes=".data then seg.drop 6 else seg

/-- `parseRangeSeg` as claim C9 words it (single prefix strip). -/
def parseRangeSegStripOnce (seg : List Char) : Option Range :=
  let replaced := stripOncePrefix seg
  let parts := (splitOnChar '-' replaced).map trimChars
  match parts.get? 0, parts.get? 1 with
  | some a, some b =>
    match parseU64 a, parseU64 b with
    | some sb, some eb => some { start_byte := sb, end_byte := some eb }
    | some sb, none => some { start_byte := sb, end_byte := none }
    | _, _ => none
  | _, _ => none

/-- The all-or-nothing collect over the claim-side segment parser. -/
def collectRangesStripOnce : List (List Char) → Option (List Range)
  | [] => some []
  | seg :: rest =>
    match parseRangeSegStripOnce seg with
    | some r => (collectRangesStripOnce rest).map (fun rs => r :: rs)
    | none => none

/-- `get_ranges` as claim C9 words it. -/
def get_ranges_stripOnce (v : String) : Option (List Range) :=
  collectRangesStripOnce (splitOnChar ',' v.data)

/-- Claim wording for C4: "some encoding from the caller's Accept-Encoding
list is present on the asset" — the first such encoding, which is the one
the resolver reaches first. -/
def firstPresent (encodings : List String) (a : Asset) :
    Option (String × AssetEncoding) :=
  encodings.findSome? (fun n => (lookupA n a.encodings).map (fun e => (n, e)))

/-! ## Concrete scenario states (used by counterexamples and witnesses) -/

/-- A plain GET request. -/
def reqOf (u : String) (hs : List (String × String)) : HttpRequest :=
  { method := "GET", url := u, headers := hs, body := [] }

/-- Store only `/index.html` (authorized creator `1`, time `5`). -/
def sIdx : Except String St :=
  store 5 { key := "/index.html", content_type := "text/html",
            content_encoding := "identity", content := [10, 11], sha256 := none }
    (init 1)

/-- `/y`: identity `[5,6]` stored first (certified), then gzip `[7]`
(present, uncertified). -/
def sY : Except String St :=
  (store 5 { key := "/y", content_type := "text/plain",
             content_encoding := "identity", content := [5, 6], sha256 := none }
     (init 1)).bind
  (store 6 { key := "/y", content_type := "text/plain",
             content_encoding := "gzip", content := [7], sha256 := none })

/-- The `/y` response for `Accept-Encoding: gzip`. -/
def respY : Except String HttpResponse := sY.bind (fun s =>
  http_request (some [9]) (reqOf "/y" [("Accept-Encoding", "gzip")]) s)

/-- `store` of `[1]` at `/a`, then `store` of `[2]` over the same (already
certified) identity encoding. -/
def sTwice : Except String St :=
  (store 5 { key := "/a", content_type := "t", content_encoding := "identity",
             content := [1], sha256 := none } (init 1)).bind
  (store 6 { key := "/a", content_type := "t", content_encoding := "identity",
             content := [2], sha256 := none })

/-- `store` of `[1]` at `/a`, then `delete_asset`. -/
def sDel : Except String St :=
  (store 5 { key := "/a", content_type := "t", content_encoding := "identity",
             content := [1], sha256 := none } (init 1)).map
    (fun s => do_delete_asset { key := "/a" } s)

/-- `store` of `[1]` at `/a`, then `clear`. -/
def sClr : Except String St :=
  (store 5 { key := "/a", content_type := "t", content_encoding := "identity",
             content := [1], sha256 := none } (init 1)).map do_clear

/-- Concrete `store` argument for the C10 witness. -/
def c10wArg : StoreArg :=
  { key := "/a", content_type := "t", content_encoding := "identity",
    content := [1], sha256 := none }

/-- State with only `/a` stored (identity), for the C5 witness. -/
def s5w : St :=
  ((store 5 { key := "/a", content_type := "t", content_encoding := "identity",
              content := [1], sha256 := none } (init 1)).toOption.getD emptySt)

def s5wArg : UnsetAssetContentArguments :=
  { key := "/a", content_encoding := "identity" }

/-- `s5w` after unsetting its only encoding. -/
def s5wAfter : St := (do_unset_asset_content s5wArg s5w).toOption.getD emptySt

/-- The `/a` asset of `s5w`. -/
def s5wAsset : Asset :=
  (lookupA "/a" s5w.assets).getD { content_type := "", encodings := [] }

/-- `store` call with empty content at `/e`. -/
def sEmpty : Except String St :=
  store 5 { key := "/e", content_type := "t", content_encoding := "identity",
            content := [], sha256 := none } (init 1)

/-- Batch 1, chunks `[1]`, `[2]`, `[3]` as ids 1, 2, 3, asset `/x`,
`set_asset_content` with chunks 1 and 2, then again with chunk 3 (both
without a caller digest). -/
def sSet2 : Except String St := do
  let s := (create_batch 0 (init 1)).1
  let (s, _c1) ← create_chunk 0 { batch_id := 1, content := [1], sha256 := none } s
  let (s, _c2) ← create_chunk 0 { batch_id := 1, content := [2], sha256 := none } s
  let (s, _c3) ← create_chunk 0 { batch_id := 1, content := [3], sha256 := none } s
  let s ← do_create_asset { key := "/x", content_type := "t" } s
  let s ← do_set_asset_content 7
    { key := "/x", content_encoding := "identity", chunk_ids := [1, 2], sha256 := none } s
  do_set_asset_content 8
    { key := "/x", content_encoding := "identity", chunk_ids := [3], sha256 := none } s

/-- The `sSet2` scenario stopped just before its second `set_asset_content`. -/
def sSet2Pre : Except String St := do
  let s := (create_batch 0 (init 1)).1
  let (s, _c1) ← create_chunk 0 { batch_id := 1, content := [1], sha256 := none } s
  let (s, _c2) ← create_chunk 0 { batch_id := 1, content := [2], sha256 := none } s
  let (s, _c3) ← create_chunk 0 { batch_id := 1, content := [3], sha256 := none } s
  let s ← do_create_asset { key := "/x", content_type := "t" } s
  do_set_asset_content 7
    { key := "/x", content_encoding := "identity", chunk_ids := [1, 2], sha256 := none } s

/-- The concrete state the C6 witness starts from. -/
def s6w : St := sSet2Pre.toOption.getD emptySt

/-- The second `set_asset_content` argument of the C6 scenario. -/
def arg6w : SetAssetContentArguments :=
  { key := "/x", content_encoding := "identity", chunk_ids := [3], sha256 := none }

/-- The `/x` asset of `s6w`. -/
def a6w : Asset :=
  (lookupA "/x" s6w.assets).getD { content_type := "", encodings := [] }

/-- `s6w` after the second `set_asset_content`. -/
def s6wAfter : St := (do_set_asset_content 8 arg6w s6w).toOption.getD emptySt

/-- The chunks the second `set_asset_content` consumes. -/
def cs6w : List Chunk :=
  ((takeChunks [3] s6w.chunks).toOption.map Prod.fst).getD []

/-- The chunk table left behind by that consumption. -/
def m6w : List (Nat × Chunk) :=
  ((takeChunks [3] s6w.chunks).toOption.map Prod.snd).getD []

/-- The concrete state the C4 witness runs `build_http_response` on. -/
def s4w : St := sY.toOption.getD emptySt

/-- The `/y` asset of `s4w`. -/
def a4w : Asset :=
  (lookupA "/y" s4w.assets).getD { content_type := "", encodings := [] }

/-- Its gzip encoding (present, uncertified). -/
def e4w : AssetEncoding :=
  (lookupA "gzip" a4w.encodings).getD AssetEncoding.default

/-- Its identity encoding (present, certified). -/
def ide4w : AssetEncoding :=
  (lookupA "identity" a4w.encodings).getD AssetEncoding.default

/-- The asset-hash-tree entry of `/y` in `s4w`. -/
def ah4w : Hash := (lookupA "/y" s4w.asset_hashes).getD []

/-- The chunk-hash tree of `/y` in `s4w`. -/
def ct4w : List (String × Hash) := (lookupA "/y" s4w.chunk_hashes).getD []

/-- The gzip encoding's single chunk. -/
def c04w : ContentChunk :=
  e4w.content_chunks.headD { content := [], start_byte := 0, end_byte := 0, sha256 := [] }

/-- A concrete operation log for the C1 witness. -/
def ops1w : List MutOp := [.storeM 5 c10wArg]

/-- The state that log reaches from `init 1`. -/
def s1w : St := (runOps ops1w (init 1)).toOption.getD emptySt

/-- A concrete stable state (distinct keys) for the C1 witness. -/
def ssw : StableState := { authorized := [1], stable_assets := s1w.assets }

/-! # Lemmas and theorems -/

/-! ## Association-list lemmas -/

theorem lookupA_insertA_self {K V : Type} [DecidableEq K] (k : K) (v : V)
    (l : List (K × V)) : lookupA k (insertA k v l) = some v := by
  simp [insertA, lookupA]

theorem lookupA_filter_ne {K V : Type} [DecidableEq K] (k k0 : K)
    (l : List (K × V)) (h : k ≠ k0) :
    lookupA k (l.filter (fun p => p.1 ≠ k0)) = lookupA k l := by
  induction l with
  | nil => rfl
  | cons p t ih =>
    by_cases hp : p.1 = k0
    · have hpk : p.1 ≠ k := by rintro rfl; exact h hp
      rw [List.filter_cons_of_neg (by simpa using hp)]
      rw [ih, lookupA, if_neg hpk]
    · rw [List.filter_cons_of_pos (by simpa using hp)]
      by_cases hk : p.1 = k
      · rw [lookupA, if_pos hk, lookupA, if_pos hk]
      · rw [lookupA, if_neg hk, lookupA, if_neg hk, ih]

theorem lookupA_insertA_ne {K V : Type} [DecidableEq K] (k k0 : K) (v : V)
    (l : List (K × V)) (h : k ≠ k0) :
    lookupA k (insertA k0 v l) = lookupA k l := by
  simp only [insertA, lookupA]
  rw [if_neg (fun hh => h hh.symm)]
  exact lookupA_filter_ne k k0 l h

theorem lookupA_eraseA_self {K V : Type} [DecidableEq K] (k : K)
    (l : List (K × V)) : lookupA k (eraseA k l) = none := by
  induction l with
  | nil => rfl
  | cons p t ih =>
    by_cases hp : p.1 = k
    · simpa [eraseA, List.filter, hp] using ih
    · simpa [eraseA, List.filter, hp, lookupA] using ih

theorem lookupA_eraseA_ne {K V : Type} [DecidableEq K] (k k0 : K)
    (l : List (K × V)) (h : k ≠ k0) :
    lookupA k (eraseA k0 l) = lookupA k l :=
  lookupA_filter_ne k k0 l h

theorem lookupA_mem {K V : Type} [DecidableEq K] {k : K} {v : V}
    {l : List (K × V)} (h : lookupA k l = some v) : (k, v) ∈ l := by
  induction l with
  | nil => simp [lookupA] at h
  | cons p t ih =>
    by_cases hp : p.1 = k
    · simp only [lookupA, hp, if_pos] at h
      cases p with
      | mk k1 v1 =>
        simp only at hp
        subst hp
        cases h
        exact List.mem_cons_self _ _
    · simp only [lookupA, hp, if_neg, not_false_iff] at h
      exact List.mem_cons_of_mem _ (ih h)

/-! ## URL decoder lemmas -/

/-- Fidelity of the flattening: after a `%` byte, `url_decode` is exactly
"run `convert_percent`, fail on `None`, else emit the char and continue". -/
theorem url_decode_percent_step (bs : List Nat) :
    url_decode (37 :: bs) =
      match convert_percent bs with
      | none => .error .InvalidPercentEncoding
      | some (v, rest) => (url_decode rest).map (fun t => Char.ofNat v :: t) := by
  match bs with
  | [] => rfl
  | c :: bs2 =>
    by_cases hc : c = 37
    · subst hc
      simp [url_decode, convert_percent]
    · have hhex : hexDigit c = none ∨ ∃ h, hexDigit c = some h := by
        cases hexDigit c with
        | none => exact Or.inl rfl
        | some h => exact Or.inr ⟨h, rfl⟩
      rcases hhex with hh | ⟨h, hh⟩
      · simp [url_decode, convert_percent, hc, hh]
      · match bs2 with
        | [] => simp [url_decode, convert_percent, hc, hh]
        | d :: bs3 =>
          cases hd : hexDigit d with
          | none => simp [url_decode, convert_percent, hc, hh, hd]
          | some l => simp [url_decode, convert_percent, hc, hh, hd]

/-! ## C2, C3: HTTP resolution of paths without a chunk-hash tree -/

/-- C2: the claim says that an `http_request` for a path absent from the
asset-hash tree, with `/index.html` present and certified, answers `200`
with `/index.html`'s body and a chunk witness drawn from `/index.html`'s
chunk-hash tree.  In the code, the SPA branch calls
`get_serialized_chunk_witness(path, …)` with the *requested* path, whose
chunk-hash tree does not exist, so the call traps
`asset not found in chunks map` instead: with only `/index.html` stored and
certified, `GET /missing` fails. -/
theorem C2_spa_chunk_witness_trap :
    (sIdx.map (fun s => ((lookupA "/index.html" s.asset_hashes).isSome,
        (lookupA "/index.html" s.assets).map (fun a =>
          (lookupA "identity" a.encodings).map (fun e => e.certified)))))
      = .ok (true, some (some true)) ∧
    sIdx.bind (fun s => http_request (some [9]) (reqOf "/missing" []) s) =
      .error "asset not found in chunks map" := by
  constructor <;> decide

/-- C3: the claim says that when neither the path nor `/index.html` is
certified, the resolver answers a certified `404` without trapping.  In the
code, direct resolution also calls `get_serialized_chunk_witness(path, …)`
unconditionally, so a request for a never-stored path traps
`asset not found in chunks map` before `build_404` is reached: on a freshly
initialized canister, `GET /a` fails instead of returning `404`. -/
theorem C3_missing_path_trap :
    http_request (some [9]) (reqOf "/a" []) (init 1) =
      .error "asset not found in chunks map" := by decide

/-! ## C5: delete_asset / clear and the two hash trees -/

/-- C5 counterexample: after `store`-then-`delete_asset` of `/a` the
chunk-hash tree still contains `/a`, and after `store`-then-`clear` both the
asset-hash tree and the chunk-hash tree still contain `/a`, contradicting
"neither the asset-hash tree nor the chunk-hash-tree map contains that
key". -/
theorem C5_counterexample :
    sDel.map (fun s => ((lookupA "/a" s.assets).isSome,
        (lookupA "/a" s.asset_hashes).isSome, (lookupA "/a" s.chunk_hashes).isSome))
      = .ok (false, false, true) ∧
    sClr.map (fun s => (s.assets.isEmpty, (lookupA "/a" s.asset_hashes).isSome,
        (lookupA "/a" s.chunk_hashes).isSome)) = .ok (true, true, true) := by
  constructor <;> decide

/-- C5 amended: `delete_asset` removes the asset and its asset-hash entry
but leaves the chunk-hash tree untouched; `unset_asset_content` that removes
the last encoding drops the key from both trees; `clear` empties the asset
table but leaves both trees untouched. -/
theorem C5_delete_clear_behavior :
    (∀ (arg : DeleteAssetArguments) (s : St),
      lookupA arg.key (do_delete_asset arg s).assets = none ∧
      lookupA arg.key (do_delete_asset arg s).asset_hashes = none ∧
      (do_delete_asset arg s).chunk_hashes = s.chunk_hashes) ∧
    (∀ (arg : UnsetAssetContentArguments) (s s' : St) (a : Asset),
      lookupA arg.key s.assets = some a →
      (lookupA arg.content_encoding a.encodings).isSome = true →
      eraseA arg.content_encoding a.encodings = [] →
      do_unset_asset_content arg s = .ok s' →
      lookupA arg.key s'.asset_hashes = none ∧
      lookupA arg.key s'.chunk_hashes = none) ∧
    (∀ s : St, (do_clear s).assets = [] ∧
      (do_clear s).asset_hashes = s.asset_hashes ∧
      (do_clear s).chunk_hashes = s.chunk_hashes) := by
  refine ⟨fun arg s => ⟨?_, ?_, rfl⟩, fun arg s s' a hl hf he hr => ?_, fun s => ⟨rfl, rfl, rfl⟩⟩
  · exact lookupA_eraseA_self _ _
  · exact lookupA_eraseA_self _ _
  · simp only [do_unset_asset_content, hl, hf, if_true] at hr
    rw [he] at hr
    have hrec : on_asset_change arg.key
          { a with encodings := ([] : List (String × AssetEncoding)) } s
        = ({ a with encodings := ([] : List (String × AssetEncoding)) },
           delete_chunks arg.key (delete_asset_hash arg.key s)) := rfl
    rw [hrec] at hr
    cases hr
    exact ⟨lookupA_eraseA_self _ _, lookupA_eraseA_self _ _⟩

/-! ## Lemmas about `priorityFirst`, `clearFlags` and `on_asset_change` -/

theorem lookupA_clearFlags (n : String) (l : List (String × AssetEncoding)) :
    lookupA n (clearFlags l) = (lookupA n l).map stripCert := by
  induction l with
  | nil => rfl
  | cons p t ih =>
    rw [clearFlags, lookupA, lookupA]
    by_cases hp : p.1 = n
    · rw [if_pos hp, if_pos hp]
      rfl
    · rw [if_neg hp, if_neg hp, ih]

theorem stripCert_of_not_certified {e : AssetEncoding}
    (h : e.certified = false) : stripCert e = e := by
  cases e
  simp_all [stripCert]

theorem findSome?_lookup_some {names : List String}
    {l : List (String × AssetEncoding)} {pn : String} {pe : AssetEncoding}
    (h : names.findSome? (fun n => (lookupA n l).map (fun e => (n, e)))
          = some (pn, pe)) :
    lookupA pn l = some pe := by
  induction names with
  | nil => simp [List.findSome?] at h
  | cons m rest ih =>
    rw [List.findSome?] at h
    cases hm : lookupA m l with
    | some e =>
      rw [hm] at h
      simp only [Option.map_some'] at h
      cases h
      exact hm
    | none =>
      rw [hm] at h
      simp only [Option.map_none'] at h
      exact ih h

theorem findSome?_lookup_clearFlags (names : List String)
    (l : List (String × AssetEncoding)) :
    names.findSome? (fun n => (lookupA n (clearFlags l)).map (fun e => (n, e)))
      = (names.findSome? (fun n => (lookupA n l).map (fun e => (n, e)))).map
          (fun p => (p.1, stripCert p.2)) := by
  induction names with
  | nil => rfl
  | cons m rest ih =>
    rw [List.findSome?, List.findSome?, lookupA_clearFlags]
    cases hm : lookupA m l with
    | some e => rfl
    | none => simpa using ih

theorem findSome?_lookup_insertA (names : List String) (n : String)
    (v : AssetEncoding) (l : List (String × AssetEncoding))
    (h : (lookupA n l).isSome = true) :
    names.findSome? (fun m => (lookupA m (insertA n v l)).map (fun e => (m, e)))
      = (names.findSome? (fun m => (lookupA m l).map (fun e => (m, e)))).map
          (fun p => if p.1 = n then (p.1, v) else p) := by
  induction names with
  | nil => rfl
  | cons m rest ih =>
    rw [List.findSome?, List.findSome?]
    by_cases hm : m = n
    · subst hm
      rw [lookupA_insertA_self]
      cases hl : lookupA m l with
      | some e => simp
      | none => rw [hl] at h; simp at h
    · rw [lookupA_insertA_ne m n v l hm]
      cases hl : lookupA m l with
      | some e => simp [hm]
      | none => simpa using ih

theorem priorityFirst_lookup {l : List (String × AssetEncoding)}
    {pn : String} {pe : AssetEncoding} (h : priorityFirst l = some (pn, pe)) :
    lookupA pn l = some pe :=
  findSome?_lookup_some h

theorem priorityFirst_clearFlags (l : List (String × AssetEncoding)) :
    priorityFirst (clearFlags l)
      = (priorityFirst l).map (fun p => (p.1, stripCert p.2)) :=
  findSome?_lookup_clearFlags _ l

theorem priorityFirst_insertA (n : String) (v : AssetEncoding)
    (l : List (String × AssetEncoding)) (h : (lookupA n l).isSome = true) :
    priorityFirst (insertA n v l)
      = (priorityFirst l).map (fun p => if p.1 = n then (p.1, v) else p) :=
  findSome?_lookup_insertA _ n v l h

theorem lookupA_stripCert_insertA_true (n1 n : String) (e1 : AssetEncoding)
    (l : List (String × AssetEncoding)) (he1 : lookupA n1 l = some e1) :
    (lookupA n (insertA n1 { e1 with certified := true } l)).map stripCert
      = (lookupA n l).map stripCert := by
  by_cases hn : n = n1
  · subst hn
    rw [lookupA_insertA_self, he1]
    simp [stripCert]
  · rw [lookupA_insertA_ne n n1 _ l hn]

/-- The re-certification tail only toggles `certified` flags. -/
theorem on_asset_change_recert_lookup (k : String) (a : Asset) (s : St)
    (n : String) :
    (lookupA n ((on_asset_change_recert k a s).1.encodings)).map stripCert
      = (lookupA n a.encodings).map stripCert := by
  rw [on_asset_change_recert]
  by_cases hemp : a.encodings.isEmpty = true
  · rw [if_pos hemp]
  · rw [if_neg hemp]
    have hstrip : ∀ m, (lookupA m (clearFlags a.encodings)).map stripCert
        = (lookupA m a.encodings).map stripCert := by
      intro m
      rw [lookupA_clearFlags]
      cases lookupA m a.encodings with
      | some e => simp [stripCert]
      | none => rfl
    cases hp : priorityFirst (clearFlags a.encodings) with
    | some p =>
      cases p with
      | mk n1 e1 =>
        have he1 : lookupA n1 (clearFlags a.encodings) = some e1 :=
          priorityFirst_lookup hp
        simp only [hp]
        rw [lookupA_stripCert_insertA_true n1 n e1 (clearFlags a.encodings) he1]
        exact hstrip n
    | none =>
      cases hcf : clearFlags a.encodings with
      | nil =>
        exfalso
        apply hemp
        cases henc : a.encodings with
        | nil => rfl
        | cons p t => rw [henc, clearFlags] at hcf; cases hcf
      | cons hd tl =>
        cases hd with
        | mk hn hv =>
          have he1 : lookupA hn (clearFlags a.encodings) = some hv := by
            rw [hcf, lookupA, if_pos rfl]
          simp only [← hcf, hp]
          rw [lookupA_stripCert_insertA_true hn n hv (clearFlags a.encodings) he1]
          exact hstrip n

/-- `on_asset_change` only toggles `certified` flags: every encoding's other
fields, looked up by name, are unchanged. -/
theorem on_asset_change_lookup (k : String) (a : Asset) (s : St) (n : String) :
    (lookupA n ((on_asset_change k a s).1.encodings)).map stripCert
      = (lookupA n a.encodings).map stripCert := by
  rw [on_asset_change]
  cases hp : priorityFirst a.encodings with
  | some p =>
    cases p with
    | mk pn pe =>
      by_cases hc : pe.certified
      · simp [hc]
      · simp only [hc, if_false]
        exact on_asset_change_recert_lookup k a s n
  | none => exact on_asset_change_recert_lookup k a s n

/-- C5 witness: the unset clause of the amended statement instantiated —
unsetting the only encoding of `/a` on the stored state clears the key from
both trees. -/
theorem C5_witness :
    lookupA "/a" s5wAfter.asset_hashes = none ∧
    lookupA "/a" s5wAfter.chunk_hashes = none :=
  C5_delete_clear_behavior.2.1 s5wArg s5w s5wAfter s5wAsset
    (by decide) (by decide) (by decide) (by decide)

/-! ## C7: authorization guard -/

/-- C7 counterexample: an `authorize` call from principal `2`, which is not
in the authorized list `[1]`, is *accepted* with the state unchanged instead
of being rejected with `Caller is not authorized`. -/
theorem C7_counterexample :
    applyUpdate 2 0 (.authorizeU 9) (init 1) = .ok (init 1) ∧
    (2 : Principal) ∉ (init 1).authorized ∧
    applyUpdate 2 0 (.authorizeU 9) (init 1) ≠
      .error "Caller is not authorized" := by
  refine ⟨by decide, by decide, by decide⟩

/-- C7 amended: every *guarded* mutating operation (all of them except
`authorize`) from a caller outside the authorized list is rejected with
`Caller is not authorized` (the state is kept by the host); `authorize` from
such a caller is accepted but silently leaves the state unchanged; the
authorized list only ever changes under an already-authorized caller. -/
theorem C7_guard_behavior :
    (∀ (caller : Principal) (now : Nat) (call : UpdateCall) (s : St),
      isGuarded call = true → s.authorized.contains caller = false →
      applyUpdate caller now call s = .error "Caller is not authorized") ∧
    (∀ (caller : Principal) (now : Nat) (p : Principal) (s : St),
      s.authorized.contains caller = false →
      applyUpdate caller now (.authorizeU p) s = .ok s) ∧
    (∀ (caller : Principal) (now : Nat) (p : Principal) (s s' : St),
      applyUpdate caller now (.authorizeU p) s = .ok s' →
      s'.authorized ≠ s.authorized → s.authorized.contains caller = true) := by
  refine ⟨fun caller now call s hg hc => ?_,
          fun caller now p s hc => ?_,
          fun caller now p s s' hr hne => ?_⟩
  · cases call <;>
      simp_all [applyUpdate, is_authorized, isGuarded, Bind.bind, Except.bind]
  · show Except.ok (authorize caller p s) = .ok s
    rw [authorize, hc]
    simp
  · by_cases hc : s.authorized.contains caller = true
    · exact hc
    · exfalso
      apply hne
      have hc' : s.authorized.contains caller = false := by
        cases h : s.authorized.contains caller
        · rfl
        · exact absurd h hc
      simp only [applyUpdate, authorize, hc'] at hr
      cases hr
      rfl

/-- C7 witness: instantiating the guard clause — a `clear` call from
principal `2` against the creator-`1` state is rejected. -/
theorem C7_witness :
    applyUpdate 2 0 .clearU (init 1) = .error "Caller is not authorized" :=
  C7_guard_behavior.1 2 0 .clearU (init 1) (by decide) (by decide)

/-! ## C10: store and empty content -/

/-- C10 counterexample: `store` with empty content succeeds but records the
single chunk as `start_byte = 0`, `end_byte = 2^64 - 1` — the claimed
"no underflow, `end_byte = start_byte + length - 1`" is false for empty
content. -/
theorem C10_counterexample :
    sEmpty.map (fun s => (lookupA "/e" s.assets).map (fun a =>
        (lookupA "identity" a.encodings).map (fun e =>
          e.content_chunks.map (fun c => (c.start_byte, c.end_byte)))))
      = .ok (some (some [(0, U64MOD - 1)])) ∧
    U64MOD - 1 = 18446744073709551615 := by
  constructor <;> decide

/-- C10 amended: for `store` with *non-empty* content the subtraction does
not underflow and the single stored chunk has `start_byte = 0` and
`end_byte = length - 1`; with empty content the `u64` subtraction wraps and
records `end_byte = 2^64 - 1` (see the counterexample). -/
theorem C10_store_nonempty (now : Nat) (arg : StoreArg) (s s' : St)
    (hne : arg.content ≠ []) (hlen : arg.content.length < U64MOD)
    (hr : store now arg s = .ok s') :
    ∃ a e, lookupA arg.key s'.assets = some a ∧
      lookupA arg.content_encoding a.encodings = some e ∧
      e.content_chunks.map (fun c => (c.content, c.start_byte, c.end_byte))
        = [(arg.content, 0, arg.content.length - 1)] ∧
      arg.content.length - 1 < U64MOD := by
  have hpos : 0 < arg.content.length := by
    cases hc : arg.content with
    | nil => exact absurd hc hne
    | cons x t => simp [hc]
  have hwrap : (arg.content.length + (U64MOD - 1)) % U64MOD
      = arg.content.length - 1 := by
    simp only [U64MOD] at *
    omega
  have hs' : s' = store_write now arg s := by
    rw [store] at hr
    cases harg : arg.sha256 with
    | some provided =>
      rw [harg] at hr
      simp only [] at hr
      by_cases hh : hash_bytes arg.content ≠ provided
      · rw [if_pos hh] at hr; cases hr
      · rw [if_neg hh] at hr; cases hr; rfl
    | none => rw [harg] at hr; simp only [] at hr; cases hr; rfl
  subst hs'
  have hkey : lookupA arg.key (store_write now arg s).assets
      = some (on_asset_change arg.key (store_asset now arg s) s).1 := by
    show lookupA arg.key
        (insertA arg.key (on_asset_change arg.key (store_asset now arg s) s).1
          (on_asset_change arg.key (store_asset now arg s) s).2.assets)
      = some (on_asset_change arg.key (store_asset now arg s) s).1
    exact lookupA_insertA_self _ _ _
  have hbase : lookupA arg.content_encoding (store_asset now arg s).encodings
      = some (store_encoding now arg s) := by
    show lookupA arg.content_encoding
        (insertA arg.content_encoding (store_encoding now arg s)
          (store_base_asset arg s).encodings)
      = some (store_encoding now arg s)
    exact lookupA_insertA_self _ _ _
  have hmap := on_asset_change_lookup arg.key (store_asset now arg s) s
    arg.content_encoding
  rw [hbase] at hmap
  cases he : lookupA arg.content_encoding
      ((on_asset_change arg.key (store_asset now arg s) s).1.encodings) with
  | none => rw [he] at hmap; cases hmap
  | some e =>
    rw [he] at hmap
    simp only [Option.map_some', Option.some.injEq] at hmap
    have hchunks : e.content_chunks = (store_encoding now arg s).content_chunks := by
      have := congrArg AssetEncoding.content_chunks hmap
      simpa [stripCert] using this
    refine ⟨_, e, hkey, he, ?_, ?_⟩
    · rw [hchunks]
      show [( arg.content, (0 : Nat),
              (arg.content.length + (U64MOD - 1)) % U64MOD )]
          = [(arg.content, 0, arg.content.length - 1)]
      rw [hwrap]
    · simp only [U64MOD] at *
      omega

/-- C10 witness: the amended statement instantiated at a one-byte `store`
from the initial state. -/
theorem C10_witness :
    ∃ a e, lookupA c10wArg.key (store_write 5 c10wArg (init 1)).assets = some a ∧
      lookupA c10wArg.content_encoding a.encodings = some e ∧
      e.content_chunks.map (fun c => (c.content, c.start_byte, c.end_byte))
        = [(c10wArg.content, 0, c10wArg.content.length - 1)] ∧
      c10wArg.content.length - 1 < U64MOD :=
  C10_store_nonempty 5 c10wArg (init 1) (store_write 5 c10wArg (init 1))
    (by decide) (by decide) (by decide)

/-! ## C1: the certification invariant (counterexample part) -/

/-- C1 counterexample: two consecutive `store` calls on the same (already
certified) identity encoding leave the asset-hash tree mapping `/a` to the
digest of the *old* content `[1]` while the certified encoding's `sha256` is
the digest of the new content `[2]` — the tree does not map the key to
"exactly that encoding's sha256 digest". -/
theorem C1_counterexample :
    sTwice.map (fun s => (lookupA "/a" s.asset_hashes,
        (lookupA "/a" s.assets).map (fun a =>
          (lookupA "identity" a.encodings).map (fun e => (e.certified, e.sha256)))))
      = .ok (some (hash_bytes [1]), some (some (true, hash_bytes [2]))) ∧
    hash_bytes [1] ≠ hash_bytes [2] := by
  constructor <;> decide

/-! ## C4: identity-certified fallback (counterexample part) -/

/-- C4 counterexample: with identity (`[5,6]`) certified and gzip (`[7]`)
present but uncertified, a request with `Accept-Encoding: gzip` is answered
`200` with the *gzip* body `[7]` labeled `Content-Encoding: gzip` — not the
identity encoding's body `[5,6]` as the claim states. -/
theorem C4_counterexample :
    respY.map (fun r => (r.status_code, r.body, lookupA "Content-Encoding" r.headers))
      = .ok (200, [7], some "gzip") ∧
    sY.map (fun s => (lookupA "/y" s.assets).map (fun a =>
        (lookupA "identity" a.encodings).map (fun e =>
          (e.certified, e.content_chunks.map (fun c => c.content)))))
      = .ok (some (some (true, [[5, 6]]))) ∧
    sY.map (fun s => (lookupA "/y" s.assets).map (fun a =>
        (lookupA "gzip" a.encodings).map (fun e =>
          (e.certified, e.content_chunks.map (fun c => c.content)))))
      = .ok (some (some (false, [[7]]))) ∧
    ([7] : List Nat) ≠ [5, 6] := by
  refine ⟨by decide, by decide, by decide, by decide⟩

/-! ## C6: set_asset_content digest (counterexample part) -/

/-- C6 counterexample: the second `set_asset_content` (one chunk `[3]`, no
caller digest) stores an encoding whose only chunk hash is `H [3]`, yet its
digest is the root of the *stale* chunk-hash tree `{0 ↦ H [1], 1 ↦ H [2]}` —
not the root of a tree whose entries are exactly the new chunks' hashes. -/
theorem C6_counterexample :
    sSet2.map (fun s => (lookupA "/x" s.assets).map (fun a =>
        (lookupA "identity" a.encodings).map (fun e =>
          (e.sha256, e.content_chunks.map (fun c => c.sha256)))))
      = .ok (some (some (root_hash [("0", hash_bytes [1]), ("1", hash_bytes [2])],
                         [hash_bytes [3]]))) ∧
    root_hash [("0", hash_bytes [1]), ("1", hash_bytes [2])] ≠
      root_hash [("0", hash_bytes [3])] := by
  constructor <;> decide

/-! ## C9: range parsing (counterexample part) -/

/-- C9 counterexample: `str::replace("bytes=", "")` removes *every*
occurrence, so `"bytes=bytes=1-2"` parses as `1-2`; under the claim's "the
`bytes=` prefix is stripped at most once per segment" it would fail to parse
(and the whole header would be discarded). -/
theorem C9_counterexample :
    get_ranges "bytes=bytes=1-2" = some [{ start_byte := 1, end_byte := some 2 }] ∧
    get_ranges_stripOnce "bytes=bytes=1-2" = none := by
  constructor <;> decide

theorem collectRanges_none_of_mem {seg : List Char} {segs : List (List Char)}
    (hm : seg ∈ segs) (hf : parseRangeSeg seg = none) :
    collectRanges segs = none := by
  induction segs with
  | nil => cases hm
  | cons s rest ih =>
    rw [collectRanges]
    rcases List.mem_cons.mp hm with h | h
    · subst h
      rw [hf]
    · cases hs : parseRangeSeg s with
      | none => rfl
      | some r => rw [ih h]; rfl

theorem collectRanges_forall₂ {segs : List (List Char)} {rs : List Range}
    (h : collectRanges segs = some rs) :
    List.Forall₂ (fun seg r => parseRangeSeg seg = some r) segs rs := by
  induction segs generalizing rs with
  | nil =>
    rw [collectRanges] at h
    cases h
    exact List.Forall₂.nil
  | cons s rest ih =>
    rw [collectRanges] at h
    cases hs : parseRangeSeg s with
    | none => rw [hs] at h; cases h
    | some r =>
      rw [hs] at h
      cases hrest : collectRanges rest with
      | none => rw [hrest] at h; cases h
      | some rs0 =>
        rw [hrest] at h
        simp only [Option.map_some', Option.some.injEq] at h
        subst h
        exact List.Forall₂.cons hs (ih hrest)

/-- C9 amended: `get_ranges` parses a comma-separated list of `S-E` elements
where every occurrence of the substring `bytes=` is removed from each
segment (not just a single leading prefix — see the counterexample);
`end_byte` is present exactly when the (trimmed) suffix after the first dash
parses as an unsigned 64-bit integer; parsing is all-or-nothing; and
`http_request` honors only the first parsed element. -/
theorem C9_get_ranges_behavior :
    (∀ (v : String) (seg : List Char), seg ∈ splitOnChar ',' v.data →
        parseRangeSeg seg = none → get_ranges v = none) ∧
    (∀ (v : String) (rs : List Range), get_ranges v = some rs →
        List.Forall₂ (fun seg r => parseRangeSeg seg = some r)
          (splitOnChar ',' v.data) rs) ∧
    (∀ (seg : List Char) (r : Range), parseRangeSeg seg = some r →
        ∃ a b, ((splitOnChar '-' (stripBytesEq seg)).map trimChars).get? 0 = some a ∧
          ((splitOnChar '-' (stripBytesEq seg)).map trimChars).get? 1 = some b ∧
          parseU64 a = some r.start_byte ∧ r.end_byte = parseU64 b) ∧
    (∀ (v : String) (r : Range) (rest : List Range),
        get_ranges v = some (r :: rest) → http_range v = .ok (some r)) ∧
    (∀ v : String, get_ranges v = none → http_range v = .ok none) := by
  refine ⟨fun v seg hm hf => collectRanges_none_of_mem hm hf,
          fun v rs h => collectRanges_forall₂ h,
          fun seg r h => ?_, fun v r rest h => ?_, fun v h => ?_⟩
  · rw [parseRangeSeg] at h
    cases h0 : ((splitOnChar '-' (stripBytesEq seg)).map trimChars).get? 0 with
    | none => rw [h0] at h; cases h
    | some a =>
      rw [h0] at h
      cases h1 : ((splitOnChar '-' (stripBytesEq seg)).map trimChars).get? 1 with
      | none => rw [h1] at h; cases h
      | some b =>
        rw [h1] at h
        simp only [] at h
        refine ⟨a, b, rfl, rfl, ?_⟩
        cases ha : parseU64 a with
        | none => rw [ha] at h; cases hb : parseU64 b with
          | none => rw [hb] at h; cases h
          | some eb => rw [hb] at h; cases h
        | some sb =>
          rw [ha] at h
          cases hb : parseU64 b with
          | none => rw [hb] at h; cases h; exact ⟨rfl, rfl⟩
          | some eb => rw [hb] at h; cases h; exact ⟨rfl, rfl⟩
  · rw [http_range, h]
    rfl
  · rw [http_range, h]
    rfl

/-- C9 witness: the amended statement's "first element honored" clause at a
concrete header. -/
theorem C9_witness :
    http_range "bytes=10-11" = .ok (some { start_byte := 10, end_byte := some 11 }) :=
  C9_get_ranges_behavior.2.2.2.1 "bytes=10-11"
    { start_byte := 10, end_byte := some 11 } [] (by decide)

/-- The `get_ranges` unit tests of the source, replayed on the model. -/
example : get_ranges "" = none := by decide
example : get_ranges "bytes=0-" = some [{ start_byte := 0, end_byte := none }] := by decide
example : get_ranges "bytes=10-11" = some [{ start_byte := 10, end_byte := some 11 }] := by decide
example : get_ranges "bytes=10-11, 100-101" =
    some [{ start_byte := 10, end_byte := some 11 },
          { start_byte := 100, end_byte := some 101 }] := by decide
example : get_ranges "bytes=10-11, bytes=100-101" =
    some [{ start_byte := 10, end_byte := some 11 },
          { start_byte := 100, end_byte := some 101 }] := by decide

/-! ## C8: url_decode -/

theorem except_map_error_iff {f : List Char → List Char}
    {e : Except UrlDecodeError (List Char)} :
    (e.map f = .error .InvalidPercentEncoding) ↔
      e = .error .InvalidPercentEncoding := by
  cases e with
  | error a => cases a; simp [Except.map]
  | ok v => simp [Except.map]

/-- C8: `url_decode` decodes `%HH` (two hex digits) to the byte `HH`, `%%`
to `%`, `+` to space, any other byte to itself as a code point; and it fails
with `InvalidPercentEncoding` exactly on the claim's failure condition
(`hasBadPercent`): a `%` that is last, is followed by fewer than two
characters, or is followed by a non-hex character in either of the two
positions after it, with the `%%` case taking precedence. -/
theorem C8_url_decode_spec :
    (url_decode [] = .ok []) ∧
    (∀ bs : List Nat, url_decode (37 :: 37 :: bs)
        = (url_decode bs).map (fun t => '%' :: t)) ∧
    (∀ (h l : Nat) (bs : List Nat) (hh hl : Nat),
        hexDigit h = some hh → hexDigit l = some hl →
        url_decode (37 :: h :: l :: bs)
          = (url_decode bs).map (fun t => Char.ofNat (hh * 16 + hl) :: t)) ∧
    (∀ bs : List Nat, url_decode (43 :: bs)
        = (url_decode bs).map (fun t => ' ' :: t)) ∧
    (∀ (b : Nat) (bs : List Nat), b ≠ 37 → b ≠ 43 →
        url_decode (b :: bs) = (url_decode bs).map (fun t => Char.ofNat b :: t)) ∧
    (∀ bs : List Nat,
        (url_decode bs = .error .InvalidPercentEncoding) ↔
          hasBadPercent bs = true) := by
  refine ⟨rfl, fun bs => rfl, fun h l bs hh hl hhe hle => ?_,
          fun bs => by rw [url_decode.eq_def]; norm_num,
          fun b bs hb37 hb43 => ?_, fun bs => ?_⟩
  · have hne : h ≠ 37 := by
      intro he
      subst he
      cases hhe
    simp [url_decode, hne, hhe, hle]
  · rw [url_decode.eq_def]
    simp [hb37, hb43]
  · induction bs using hasBadPercent.induct with
    | case4 c hc =>
      simp_all [url_decode, hasBadPercent, except_map_error_iff]
      cases hexDigit c <;> rfl
    | case5 c d bs hne h1 h2 ih =>
      simp_all [url_decode, hasBadPercent, except_map_error_iff]
      rcases Option.isSome_iff_exists.mp h1 with ⟨cv, hcv⟩
      rcases Option.isSome_iff_exists.mp h2 with ⟨dv, hdv⟩
      rw [hcv, hdv]
      simp only [except_map_error_iff]
      exact ih
    | case6 c d bs hne h1 h2 =>
      simp_all [url_decode, hasBadPercent, except_map_error_iff]
      cases hexDigit c <;> rfl
    | case8 b bs hx1 hx2 hx3 hx4 ih =>
      have hne : b ≠ 37 := by
        intro hb
        cases bs with
        | nil => exact hx1 hb rfl
        | cons b1 t1 =>
          cases t1 with
          | nil => exact hx3 b1 hb rfl
          | cons b2 t2 => exact hx4 b1 b2 t2 hb rfl
      simp_all [url_decode, hasBadPercent, except_map_error_iff]
      rw [url_decode.eq_def]
      by_cases h43 : b = 43 <;>
        simp [hne, h43, except_map_error_iff, ih]
    | _ => simp_all [url_decode, hasBadPercent, except_map_error_iff]

/-- C8 witness: instantiating the `%HH` clause and the failure
characterization at concrete inputs. -/
theorem C8_witness :
    url_decode [37, 50, 48] = (url_decode []).map (fun t => Char.ofNat (2 * 16 + 0) :: t) ∧
    url_decode [37] = .error .InvalidPercentEncoding :=
  ⟨C8_url_decode_spec.2.2.1 50 48 [] 2 0 (by decide) (by decide),
   (C8_url_decode_spec.2.2.2.2.2 [37]).mpr (by decide)⟩

/-- The `url_decode` unit tests of the source, replayed on the model. -/
example : url_decode (strBytes "/%") = .error .InvalidPercentEncoding := by decide
example : url_decode (strBytes "/%%") = .ok "/%".data := by decide
example : url_decode (strBytes "/%20a") = .ok "/ a".data := by decide
example : url_decode (strBytes "/%%+a%20+%@") = .error .InvalidPercentEncoding := by decide
example : url_decode (strBytes "/has%percent.txt") = .error .InvalidPercentEncoding := by decide
example : url_decode [47, 37, 101, 54] = .ok ['/', 'æ'] := by decide

end CertifiedAssets

namespace CertifiedAssets

/-! ## C4: serving under the identity-certified fallback -/

/-- With `range = None`, `get_chunk_index_by_range` is the zero fallback. -/
theorem gcir_none (encodings : List String) (oa : Option Asset) :
    get_chunk_index_by_range none encodings oa
      = { start_byte := 0, end_byte := 0, index := 0, total := 0 } := rfl

/-- When the key has a chunk-hash tree, the chunk witness never traps. -/
theorem gscw_ok {key : String} {s : St} {ct : List (String × Hash)}
    (h : lookupA key s.chunk_hashes = some ct) (index : Nat) :
    ∃ w, get_serialized_chunk_witness key index s = .ok w := by
  rw [get_serialized_chunk_witness, h]
  by_cases hi : (lookupA (toString index) ct).isSome = true
  · exact ⟨_, if_pos hi⟩
  · exact ⟨"", if_neg hi⟩

/-- When the identity encoding is certified, the serving loop accepts the
first *present* encoding of the accept list, certified or not. -/
theorem find_serving_eq_firstPresent (encodings : List String) (a : Asset)
    (ide : AssetEncoding) (hid : lookupA "identity" a.encodings = some ide)
    (hc : ide.certified = true) :
    find_serving_enc encodings a = firstPresent encodings a := by
  rw [find_serving_enc, firstPresent]
  induction encodings with
  | nil => rfl
  | cons n rest ih =>
    rw [List.findSome?, List.findSome?]
    cases hn : lookupA n a.encodings with
    | none => simpa using ih
    | some e =>
      by_cases hec : e.certified = true
      · simp [hec]
      · simp [hec, hid, hc]

/-- C4 amended: when some encoding of the accept list is present on the
asset but not certified while `identity` is present and certified, the
response is a `200` whose body is the *requested* encoding's chunk (not the
identity encoding's body) and whose `Content-Encoding` header carries the
requested encoding name. -/
theorem C4_requested_encoding_served
    (cb : List Nat) (path : String) (encodings : List String) (s : St)
    (a : Asset) (en : String) (e ide : AssetEncoding) (ah0 : Hash)
    (ct : List (String × Hash)) (c0 : ContentChunk) (crest : List ContentChunk)
    (ha : lookupA path s.assets = some a)
    (hah : lookupA path s.asset_hashes = some ah0)
    (hct : lookupA path s.chunk_hashes = some ct)
    (hfp : firstPresent encodings a = some (en, e))
    (hec : e.certified = false)
    (hid : lookupA "identity" a.encodings = some ide)
    (hidc : ide.certified = true)
    (hchunks : e.content_chunks = c0 :: crest) :
    ∃ resp, build_http_response (some cb) path encodings none s = .ok resp ∧
      resp.status_code = 200 ∧ resp.body = c0.content ∧
      en ≠ "identity" ∧ ("Content-Encoding", en) ∈ resp.headers := by
  have hen : en ≠ "identity" := by
    intro hee
    subst hee
    have hlk := findSome?_lookup_some hfp
    rw [hid] at hlk
    cases hlk
    rw [hidc] at hec
    cases hec
  have hserv : find_serving_enc encodings a = some (en, e) := by
    rw [find_serving_eq_firstPresent encodings a ide hid hidc]
    exact hfp
  obtain ⟨w, hw⟩ := gscw_ok hct 0
  simp only [build_http_response, hah, Option.isNone_some, Bool.false_and,
    Bool.false_eq_true, if_false, gcir_none, bind, Except.bind, pure,
    Except.pure, hw, witness_to_header, ha, hserv, Option.isSome_none,
    build_200, listGetE, hchunks, List.get?]
  refine ⟨_, rfl, rfl, rfl, hen, ?_⟩
  simp [hen]

end CertifiedAssets

namespace CertifiedAssets

/-! ## C6: set_asset_content -/

/-- Start offsets of assembled chunks: chunk `i` starts at the running total
of the preceding lengths (mod `2^64`). -/
theorem buildChunks_start :
    ∀ (cs : List Chunk) (i t : Nat), i < cs.length → t < U64MOD →
      ((buildChunks t cs).get? i).map (fun c => c.start_byte)
        = some ((t + ((cs.take i).map (fun c => c.content.length)).sum) % U64MOD) := by
  intro cs
  induction cs with
  | nil => intro i t hi _; cases hi
  | cons c rest ih =>
    intro i t hi ht
    cases i with
    | zero =>
      simp [buildChunks, Nat.mod_eq_of_lt ht]
    | succ j =>
      have hj : j < rest.length := Nat.lt_of_succ_lt_succ hi
      have harg : (t + c.content.length) % U64MOD < U64MOD :=
        Nat.mod_lt _ (by simp [U64MOD])
      rw [buildChunks]
      simp only [List.get?]
      rw [ih j _ hj harg]
      rw [Nat.mod_add_mod]
      simp [List.sum_cons, Nat.add_assoc]

/-- After inserting an encoding and running `on_asset_change`, the written
key holds the inserted encoding (up to the `certified` flag). -/
theorem write_lookup_general (k n : String) (amid : Asset) (enc : AssetEncoding)
    (sb : St) (hbase : lookupA n amid.encodings = some enc) :
    ∃ e, lookupA k (insertA k (on_asset_change k amid sb).1
          (on_asset_change k amid sb).2.assets)
        = some (on_asset_change k amid sb).1 ∧
      lookupA n ((on_asset_change k amid sb).1.encodings) = some e ∧
      stripCert e = stripCert enc := by
  have hmap := on_asset_change_lookup k amid sb n
  rw [hbase] at hmap
  cases he : lookupA n ((on_asset_change k amid sb).1.encodings) with
  | none => rw [he] at hmap; cases hmap
  | some e =>
    rw [he] at hmap
    simp only [Option.map_some', Option.some.injEq] at hmap
    exact ⟨e, lookupA_insertA_self _ _ _, rfl, hmap⟩

/-- After `set_content_write`, the written key holds the written encoding
(up to the `certified` flag toggled by `on_asset_change`). -/
theorem set_content_write_lookup (now : Nat) (arg : SetAssetContentArguments)
    (a : Asset) (cs : List Chunk) (sha : Hash) (sb : St) :
    ∃ a' e, lookupA arg.key (set_content_write now arg a cs sha sb).assets = some a' ∧
      lookupA arg.content_encoding a'.encodings = some e ∧
      stripCert e = stripCert (set_content_encoding now cs sha) := by
  obtain ⟨e, h1, h2, h3⟩ := write_lookup_general arg.key arg.content_encoding
    { a with encodings := insertA arg.content_encoding (set_content_encoding now cs sha) a.encodings }
    (set_content_encoding now cs sha) sb (lookupA_insertA_self _ _ _)
  exact ⟨_, e, h1, h2, h3⟩

/-- C6 amended: `set_asset_content` traps when `chunk_ids` is empty or the
asset does not exist; otherwise it assembles the referenced chunks in order
with each `start_byte` the sum of the preceding lengths, sets
`modified = now` (building the encoding with `certified = false` before
re-certification may flip it), and sets the digest to the caller-supplied
value verbatim when given, otherwise to the root of the asset's chunk-hash
tree *after inserting the new hashes only at indices still absent* — a tree
that keeps stale entries from earlier contents, not necessarily exactly the
new chunks' hashes (see the counterexample). -/
theorem C6_set_asset_content_behavior :
    (∀ (now : Nat) (arg : SetAssetContentArguments) (s : St),
      arg.chunk_ids = [] →
      do_set_asset_content now arg s = .error "encoding must have at least one chunk") ∧
    (∀ (now : Nat) (arg : SetAssetContentArguments) (s : St),
      arg.chunk_ids ≠ [] → lookupA arg.key s.assets = none →
      do_set_asset_content now arg s = .error "asset not found") ∧
    (∀ (now : Nat) (arg : SetAssetContentArguments) (s s' : St) (a : Asset)
        (cs : List Chunk) (m2 : List (Nat × Chunk)),
      arg.chunk_ids ≠ [] →
      lookupA arg.key s.assets = some a →
      takeChunks arg.chunk_ids s.chunks = .ok (cs, m2) →
      do_set_asset_content now arg s = .ok s' →
      ∃ a' e, lookupA arg.key s'.assets = some a' ∧
        lookupA arg.content_encoding a'.encodings = some e ∧
        e.modified = now ∧
        e.content_chunks = buildChunks 0 cs ∧
        e.total_length = chunksTotal cs ∧
        (∀ i, i < cs.length →
          ((e.content_chunks.get? i).map (fun c => c.start_byte)
            = some (((cs.take i).map (fun c => c.content.length)).sum % U64MOD))) ∧
        e.sha256 = (match arg.sha256 with
          | some h => h
          | none => root_hash (addChunkHashes
              ((lookupA arg.key s.chunk_hashes).getD []) 0 (buildChunks 0 cs)))) := by
  have hie : ∀ (l : List Nat), l ≠ [] → l.isEmpty = false := by
    intro l hl
    cases hc : l with
    | nil => exact absurd hc hl
    | cons x t => rfl
  refine ⟨fun now arg s he => ?_, fun now arg s hne hnone => ?_,
          fun now arg s s' a cs m2 hne ha htake hr => ?_⟩
  · rw [do_set_asset_content, he]
    rfl
  · rw [do_set_asset_content]
    simp only [hie _ hne, Bool.false_eq_true, if_false]
    rw [hnone]
  · rw [do_set_asset_content] at hr
    simp only [hie _ hne, Bool.false_eq_true, if_false] at hr
    rw [ha] at hr
    simp only [] at hr
    rw [htake] at hr
    simp only [bind, Except.bind] at hr
    have hfields : ∀ (sha : Hash) (sb : St),
        set_content_write now arg a cs sha sb = s' →
        ∃ a' e, lookupA arg.key s'.assets = some a' ∧
          lookupA arg.content_encoding a'.encodings = some e ∧
          e.modified = now ∧ e.content_chunks = buildChunks 0 cs ∧
          e.total_length = chunksTotal cs ∧
          (∀ i, i < cs.length →
            ((e.content_chunks.get? i).map (fun c => c.start_byte)
              = some (((cs.take i).map (fun c => c.content.length)).sum % U64MOD))) ∧
          e.sha256 = sha := by
      intro sha sb hs
      subst hs
      obtain ⟨a', e, h1, h2, h3⟩ := set_content_write_lookup now arg a cs sha sb
      have hmod : e.modified = now := congrArg AssetEncoding.modified h3
      have hcc : e.content_chunks = buildChunks 0 cs :=
        congrArg AssetEncoding.content_chunks h3
      have htl : e.total_length = chunksTotal cs :=
        congrArg AssetEncoding.total_length h3
      have hsha : e.sha256 = sha := congrArg AssetEncoding.sha256 h3
      refine ⟨a', e, h1, h2, hmod, hcc, htl, ?_, hsha⟩
      intro i hi
      rw [hcc]
      have := buildChunks_start cs i 0 hi (by simp [U64MOD])
      simpa using this
    cases harg : arg.sha256 with
    | some bytes =>
      rw [harg] at hr
      simp only [] at hr
      cases hr
      exact hfields bytes _ rfl
    | none =>
      rw [harg] at hr
      have htree : lookupA arg.key
          (set_chunks_to_tree arg.key (buildChunks 0 cs)
            { s with chunks := m2 }).chunk_hashes
          = some (addChunkHashes ((lookupA arg.key s.chunk_hashes).getD []) 0
              (buildChunks 0 cs)) := by
        show lookupA arg.key
            (insertA arg.key
              (addChunkHashes ((lookupA arg.key s.chunk_hashes).getD []) 0
                (buildChunks 0 cs))
              s.chunk_hashes)
          = _
        exact lookupA_insertA_self _ _ _
      rw [htree] at hr
      simp only [] at hr
      cases hr
      exact hfields _ _ rfl

end CertifiedAssets

namespace CertifiedAssets

/-- C4 witness: the amended statement instantiated on the `/y` scenario —
`Accept-Encoding: [gzip, identity]` with identity certified and gzip present
but uncertified serves the gzip body with `Content-Encoding: gzip`. -/
theorem C4_witness :
    ∃ resp, build_http_response (some [9]) "/y" ["gzip", "identity"] none s4w = .ok resp ∧
      resp.status_code = 200 ∧ resp.body = c04w.content ∧
      "gzip" ≠ "identity" ∧ ("Content-Encoding", "gzip") ∈ resp.headers :=
  C4_requested_encoding_served [9] "/y" ["gzip", "identity"] s4w a4w "gzip"
    e4w ide4w ah4w ct4w c04w e4w.content_chunks.tail
    (by decide) (by decide) (by decide) (by decide) (by decide) (by decide)
    (by decide) (by decide)

/-- C6 witness: the amended statement instantiated on the two-step
`set_asset_content` scenario — the second call (chunk `[3]`, no caller
digest) assembles its chunk at offset 0 and takes as digest the root of the
chunk-hash tree obtained by inserting the new hashes only at still-absent
indices of the stale tree. -/
theorem C6_witness :
    ∃ a' e, lookupA arg6w.key s6wAfter.assets = some a' ∧
      lookupA arg6w.content_encoding a'.encodings = some e ∧
      e.modified = 8 ∧
      e.content_chunks = buildChunks 0 cs6w ∧
      e.total_length = chunksTotal cs6w ∧
      (∀ i, i < cs6w.length →
        ((e.content_chunks.get? i).map (fun c => c.start_byte)
          = some (((cs6w.take i).map (fun c => c.content.length)).sum % U64MOD))) ∧
      e.sha256 = (match arg6w.sha256 with
        | some h => h
        | none => root_hash (addChunkHashes
            ((lookupA arg6w.key s6w.chunk_hashes).getD []) 0 (buildChunks 0 cs6w))) :=
  C6_set_asset_content_behavior.2.2 8 arg6w s6w s6wAfter a6w cs6w m6w
    (by decide) (by decide) (by decide) (by decide)

end CertifiedAssets

namespace CertifiedAssets

/-! ## C1: the certification invariant (preservation part) -/

theorem certFilter_clearFlags (l : List (String × AssetEncoding)) :
    certFilter (clearFlags l) = [] := by
  induction l with
  | nil => rfl
  | cons p t ih =>
    simp [clearFlags, certFilter, List.filter_cons, stripCert] at *
    exact ih

theorem certFilter_filter (q : String × AssetEncoding → Bool)
    (l : List (String × AssetEncoding)) :
    certFilter (l.filter q) = (certFilter l).filter q := by
  induction l with
  | nil => rfl
  | cons p t ih =>
    by_cases hq : q p = true <;> by_cases hc : p.2.certified = true <;>
      simp [certFilter, List.filter_cons, hq, hc] at * <;> exact ih

theorem mem_certFilter {p : String × AssetEncoding}
    {l : List (String × AssetEncoding)} :
    p ∈ certFilter l ↔ p ∈ l ∧ p.2.certified = true := by
  simp [certFilter, List.mem_filter]

theorem certFilter_insertA (n : String) (e : AssetEncoding)
    (l : List (String × AssetEncoding)) :
    certFilter (insertA n e l) =
      if e.certified then
        (n, e) :: (certFilter l).filter (fun p => p.1 ≠ n)
      else (certFilter l).filter (fun p => p.1 ≠ n) := by
  rw [insertA, certFilter, List.filter_cons]
  by_cases hc : e.certified = true <;>
    simp [hc, ← certFilter_filter, certFilter] <;>
    (congr 1; funext p; exact Bool.and_comm _ _)

theorem assetOk_of_nil {tree : List (String × Hash)} {k : String} {a : Asset}
    (hcf : certFilter a.encodings = []) : assetOk tree k a = true := by
  unfold assetOk certifiedList
  rw [hcf]

theorem assetOk_singleton_iff {tree : List (String × Hash)} {k : String}
    {a : Asset} {n : String} {e : AssetEncoding}
    (hcf : certFilter a.encodings = [(n, e)]) :
    assetOk tree k a =
      ((match priorityFirst a.encodings with
        | some (pn, pe) => n = pn && pe.certified
        | none => true) && (lookupA k tree).isSome) := by
  unfold assetOk certifiedList
  rw [hcf]

theorem assetOk_false_of_two {tree : List (String × Hash)} {k : String}
    {a : Asset} {q1 q2 : String × AssetEncoding}
    {tl : List (String × AssetEncoding)}
    (hcf : certFilter a.encodings = q1 :: q2 :: tl) : assetOk tree k a = false := by
  unfold assetOk certifiedList
  rw [hcf]

theorem assetOk_tree_congr {t1 t2 : List (String × Hash)} {k : String}
    (h : lookupA k t1 = lookupA k t2) (a : Asset) :
    assetOk t1 k a = assetOk t2 k a := by
  unfold assetOk
  rw [h]

theorem stInv_lookup {s : St} (hs : stInv s = true) {k : String} {a : Asset}
    (h : lookupA k s.assets = some a) : assetOk s.asset_hashes k a = true := by
  have hm := lookupA_mem h
  simp only [stInv, List.all_eq_true] at hs
  exact hs (k, a) hm

theorem stInv_fields_congr (s1 s2 : St) (ha : s1.assets = s2.assets)
    (hh : s1.asset_hashes = s2.asset_hashes) : stInv s1 = stInv s2 := by
  simp only [stInv, ha, hh]

theorem findSome?_lookup_none_iff (names : List String)
    (l : List (String × AssetEncoding)) :
    names.findSome? (fun n => (lookupA n l).map (fun e => (n, e))) = none ↔
      ∀ n ∈ names, lookupA n l = none := by
  induction names with
  | nil => simp [List.findSome?]
  | cons m rest ih =>
    rw [List.findSome?]
    cases hm : lookupA m l with
    | some e => simp [hm]
    | none => simp [hm, ih]

theorem priorityFirst_none_lookup {l : List (String × AssetEncoding)}
    (h : priorityFirst l = none) :
    ∀ n ∈ ENCODING_CERTIFICATION_ORDER, lookupA n l = none :=
  (findSome?_lookup_none_iff _ l).mp h

theorem priorityFirst_insertA_of_none {l : List (String × AssetEncoding)}
    {n : String} {e0 : AssetEncoding} (h : priorityFirst l = none)
    (hn : lookupA n l = some e0) (v : AssetEncoding) :
    priorityFirst (insertA n v l) = none := by
  rw [priorityFirst, findSome?_lookup_none_iff]
  intro m hm
  have hml : lookupA m l = none := priorityFirst_none_lookup h m hm
  have hmn : m ≠ n := by
    rintro rfl
    rw [hn] at hml
    cases hml
  rw [lookupA_insertA_ne m n v l hmn]
  exact hml

/-- If the per-asset invariant holds and some present encoding is certified,
the certified set is exactly that encoding and the tree has the key. -/
theorem certFilter_eq_singleton {tree : List (String × Hash)} {k : String}
    {a0 : Asset} (hok : assetOk tree k a0 = true) {n : String}
    {e : AssetEncoding} (hm : lookupA n a0.encodings = some e)
    (hc : e.certified = true) :
    certFilter a0.encodings = [(n, e)] ∧ (lookupA k tree).isSome = true := by
  have hmem : (n, e) ∈ certFilter a0.encodings :=
    mem_certFilter.mpr ⟨lookupA_mem hm, hc⟩
  cases hcf : certFilter a0.encodings with
  | nil =>
    rw [hcf] at hmem
    cases hmem
  | cons q tl =>
    cases tl with
    | nil =>
      rw [hcf] at hmem
      have hq : (n, e) = q := by simpa using hmem
      subst hq
      refine ⟨rfl, ?_⟩
      rw [assetOk_singleton_iff hcf, Bool.and_eq_true] at hok
      exact hok.2
    | cons q2 tl2 =>
      rw [assetOk_false_of_two hcf] at hok
      cases hok

/-- Precondition transfer for the insert-then-recertify call sites: if the
invariant holds for the stored asset and a certified inserted encoding can
only overwrite an already-certified one, then whenever the priority pick of
the updated map is certified the per-asset invariant already holds. -/
theorem assetOk_insert_pre {tree : List (String × Hash)} {k n : String}
    {e' : AssetEncoding} {a0 a1 : Asset}
    (henc : a1.encodings = insertA n e' a0.encodings)
    (hok : assetOk tree k a0 = true)
    (hcert : e'.certified = true →
      ∃ e0, lookupA n a0.encodings = some e0 ∧ e0.certified = true)
    {pn : String} {pe : AssetEncoding}
    (hp : priorityFirst a1.encodings = some (pn, pe))
    (hpc : pe.certified = true) :
    assetOk tree k a1 = true := by
  have hlk : lookupA pn a1.encodings = some pe := priorityFirst_lookup hp
  rw [henc] at hlk
  by_cases hpn : pn = n
  · subst hpn
    rw [lookupA_insertA_self] at hlk
    cases hlk
    obtain ⟨e0, he0, he0c⟩ := hcert hpc
    obtain ⟨hsing, hts⟩ := certFilter_eq_singleton hok he0 he0c
    have hcf1 : certFilter a1.encodings = [(pn, e')] := by
      rw [henc, certFilter_insertA, if_pos hpc, hsing]
      simp
    rw [assetOk_singleton_iff hcf1, hp]
    simp [hpc, hts]
  · rw [lookupA_insertA_ne pn n e' a0.encodings hpn] at hlk
    obtain ⟨hsing, hts⟩ := certFilter_eq_singleton hok hlk hpc
    by_cases he' : e'.certified = true
    · obtain ⟨e0, he0, he0c⟩ := hcert he'
      have hmem2 : (n, e0) ∈ certFilter a0.encodings :=
        mem_certFilter.mpr ⟨lookupA_mem he0, he0c⟩
      rw [hsing] at hmem2
      have hnp : n = pn ∧ e0 = pe := by simpa using hmem2
      exact absurd hnp.1.symm hpn
    · have hcf1 : certFilter a1.encodings = [(pn, pe)] := by
        rw [henc, certFilter_insertA, if_neg he', hsing]
        simp [hpn]
      rw [assetOk_singleton_iff hcf1, hp]
      simp [hpc, hts]

/-- Precondition transfer for the erase-then-recertify call site. -/
theorem assetOk_erase_pre {tree : List (String × Hash)} {k n : String}
    {a0 a1 : Asset} (henc : a1.encodings = eraseA n a0.encodings)
    (hok : assetOk tree k a0 = true)
    {pn : String} {pe : AssetEncoding}
    (hp : priorityFirst a1.encodings = some (pn, pe))
    (hpc : pe.certified = true) :
    assetOk tree k a1 = true := by
  have hlk : lookupA pn a1.encodings = some pe := priorityFirst_lookup hp
  rw [henc] at hlk
  by_cases hpn : pn = n
  · subst hpn
    rw [lookupA_eraseA_self] at hlk
    cases hlk
  · rw [lookupA_eraseA_ne pn n a0.encodings hpn] at hlk
    obtain ⟨hsing, hts⟩ := certFilter_eq_singleton hok hlk hpc
    have hcf1 : certFilter a1.encodings = [(pn, pe)] := by
      rw [henc, eraseA, certFilter_filter, hsing]
      simp [hpn]
    rw [assetOk_singleton_iff hcf1, hp]
    simp [hpc, hts]

theorem assetOk_of_parts {tree : List (String × Hash)} {k : String}
    {a : Asset} {n : String} {e : AssetEncoding}
    (hcf : certFilter a.encodings = [(n, e)])
    (hpf : priorityFirst a.encodings = some (n, e))
    (hc : e.certified = true)
    (ht : (lookupA k tree).isSome = true) : assetOk tree k a = true := by
  rw [assetOk_singleton_iff hcf, hpf]
  simp [hc, ht]

theorem assetOk_of_parts_none {tree : List (String × Hash)} {k : String}
    {a : Asset} {n : String} {e : AssetEncoding}
    (hcf : certFilter a.encodings = [(n, e)])
    (hpf : priorityFirst a.encodings = none)
    (ht : (lookupA k tree).isSome = true) : assetOk tree k a = true := by
  rw [assetOk_singleton_iff hcf, hpf]
  simp [ht]

/-- The re-certification tail establishes the per-asset invariant for its
key, changes the asset-hash tree at no other key, and leaves the asset
table alone. -/
theorem on_asset_change_recert_ok (k : String) (a : Asset) (s : St) :
    assetOk (on_asset_change_recert k a s).2.asset_hashes k
        (on_asset_change_recert k a s).1 = true ∧
    (∀ k', k' ≠ k →
      lookupA k' (on_asset_change_recert k a s).2.asset_hashes
        = lookupA k' s.asset_hashes) ∧
    (on_asset_change_recert k a s).2.assets = s.assets := by
  rw [on_asset_change_recert]
  by_cases hemp : a.encodings.isEmpty = true
  · rw [if_pos hemp]
    have henc : a.encodings = [] := by
      cases h : a.encodings with
      | nil => rfl
      | cons p t => rw [h] at hemp; cases hemp
    refine ⟨assetOk_of_nil (by rw [henc]; rfl), ?_, rfl⟩
    intro k' hk'
    exact lookupA_eraseA_ne k' k s.asset_hashes hk'
  · rw [if_neg hemp]
    cases hp : priorityFirst (clearFlags a.encodings) with
    | some p =>
      cases p with
      | mk n enc =>
        simp only [hp]
        have he1 : lookupA n (clearFlags a.encodings) = some enc :=
          priorityFirst_lookup hp
        have hcf1 : certFilter (insertA n { enc with certified := true }
            (clearFlags a.encodings)) = [(n, { enc with certified := true })] := by
          rw [certFilter_insertA, if_pos rfl, certFilter_clearFlags]
          rfl
        have hpf1 : priorityFirst (insertA n { enc with certified := true }
            (clearFlags a.encodings)) = some (n, { enc with certified := true }) := by
          rw [priorityFirst_insertA n _ _ (by rw [he1]; rfl), hp]
          simp
        refine ⟨assetOk_of_parts hcf1 hpf1 rfl
          (show (lookupA k (insertA k enc.sha256 s.asset_hashes)).isSome = true by
            rw [lookupA_insertA_self]; rfl), ?_, rfl⟩
        intro k' hk'
        show lookupA k' (insertA k enc.sha256 s.asset_hashes) = _
        exact lookupA_insertA_ne k' k _ _ hk'
    | none =>
      cases hcf : clearFlags a.encodings with
      | nil =>
        exact ⟨assetOk_of_nil rfl, fun k' _ => rfl, rfl⟩
      | cons hd tl =>
        cases hd with
        | mk hn hv =>
          have he1 : lookupA hn ((hn, hv) :: tl) = some hv := by
            rw [lookupA, if_pos rfl]
          have hp2 : priorityFirst ((hn, hv) :: tl) = none := by
            rw [← hcf]; exact hp
          simp only [hp2]
          have hnil : certFilter ((hn, hv) :: tl) = [] := by
            rw [← hcf]; exact certFilter_clearFlags _
          have hcf1 : certFilter (insertA hn { hv with certified := true }
              ((hn, hv) :: tl)) = [(hn, { hv with certified := true })] := by
            rw [certFilter_insertA, if_pos rfl, hnil]
            rfl
          have hpf1 : priorityFirst (insertA hn { hv with certified := true }
              ((hn, hv) :: tl)) = none :=
            priorityFirst_insertA_of_none hp2 he1 _
          refine ⟨assetOk_of_parts_none hcf1 hpf1
            (show (lookupA k (insertA k hv.sha256 s.asset_hashes)).isSome = true by
              rw [lookupA_insertA_self]; rfl), ?_, rfl⟩
          intro k' hk'
          show lookupA k' (insertA k hv.sha256 s.asset_hashes) = _
          exact lookupA_insertA_ne k' k _ _ hk'

/-- `on_asset_change` establishes the per-asset invariant for its key
(assuming it already held in the early-return case), is local on the
asset-hash tree, and leaves the asset table alone. -/
theorem on_asset_change_ok (k : String) (a : Asset) (s : St)
    (hpre : ∀ pn pe, priorityFirst a.encodings = some (pn, pe) →
      pe.certified = true → assetOk s.asset_hashes k a = true) :
    assetOk (on_asset_change k a s).2.asset_hashes k
        (on_asset_change k a s).1 = true ∧
    (∀ k', k' ≠ k →
      lookupA k' (on_asset_change k a s).2.asset_hashes
        = lookupA k' s.asset_hashes) ∧
    (on_asset_change k a s).2.assets = s.assets := by
  rw [on_asset_change]
  cases hp : priorityFirst a.encodings with
  | some p =>
    cases p with
    | mk pn pe =>
      dsimp only
      by_cases hc : pe.certified = true
      · rw [if_pos hc]
        exact ⟨hpre pn pe hp hc, fun k' _ => rfl, rfl⟩
      · rw [if_neg hc]
        exact on_asset_change_recert_ok k a s
  | none => exact on_asset_change_recert_ok k a s

theorem assetOk_encodings_congr {tree : List (String × Hash)} {k : String}
    {a1 a2 : Asset} (h : a1.encodings = a2.encodings) :
    assetOk tree k a1 = assetOk tree k a2 := by
  unfold assetOk certifiedList
  rw [h]

/-- Preservation of the state invariant by the common write pattern
"update the asset, run `on_asset_change`, insert the result". -/
theorem stInv_insert_write (k : String) (a1 : Asset) (s s' : St)
    (hs : stInv s = true)
    (hpre : ∀ pn pe, priorityFirst a1.encodings = some (pn, pe) →
      pe.certified = true → assetOk s.asset_hashes k a1 = true)
    (hassets : s'.assets = insertA k (on_asset_change k a1 s).1
        (on_asset_change k a1 s).2.assets)
    (hhashes : s'.asset_hashes = (on_asset_change k a1 s).2.asset_hashes) :
    stInv s' = true := by
  obtain ⟨h1, h2, h3⟩ := on_asset_change_ok k a1 s hpre
  simp only [stInv, List.all_eq_true, hassets, hhashes]
  intro p hp
  simp only [insertA] at hp
  rcases List.mem_cons.mp hp with heq | hp2
  · subst heq
    exact h1
  · have hm := List.mem_filter.mp hp2
    have hpk : p.1 ≠ k := by simpa using hm.2
    have hmem : p ∈ s.assets := by rw [← h3]; exact hm.1
    have hok : assetOk s.asset_hashes p.1 p.2 = true := by
      simp only [stInv, List.all_eq_true] at hs
      exact hs p hmem
    rw [assetOk_tree_congr (h2 p.1 hpk)]
    exact hok

theorem stInv_store_write (now : Nat) (arg : StoreArg) (s : St)
    (hs : stInv s = true) : stInv (store_write now arg s) = true := by
  have ha0 : assetOk s.asset_hashes arg.key (store_base_asset arg s) = true := by
    cases hl : lookupA arg.key s.assets with
    | none =>
      have hbe : (store_base_asset arg s).encodings = [] := by
        show ((lookupA arg.key s.assets).getD
          { content_type := "", encodings := [] }).encodings = []
        rw [hl]
        rfl
      exact assetOk_of_nil (by rw [certFilter, hbe]; rfl)
    | some a0 =>
      have hbe : (store_base_asset arg s).encodings = a0.encodings := by
        show ((lookupA arg.key s.assets).getD
          { content_type := "", encodings := [] }).encodings = a0.encodings
        rw [hl]
        rfl
      rw [assetOk_encodings_congr hbe]
      exact stInv_lookup hs hl
  have hsc : (store_encoding now arg s).certified
      = ((lookupA arg.content_encoding (store_base_asset arg s).encodings).getD
          AssetEncoding.default).certified := rfl
  have hcert : (store_encoding now arg s).certified = true →
      ∃ e0, lookupA arg.content_encoding (store_base_asset arg s).encodings
        = some e0 ∧ e0.certified = true := by
    intro hc
    rw [hsc] at hc
    cases he0 : lookupA arg.content_encoding (store_base_asset arg s).encodings with
    | none =>
      rw [he0] at hc
      simp [AssetEncoding.default] at hc
    | some e0 =>
      rw [he0] at hc
      simp only [Option.getD_some] at hc
      exact ⟨e0, rfl, hc⟩
  refine stInv_insert_write arg.key (store_asset now arg s) s _ hs ?_ rfl rfl
  intro pn pe hp hpc
  exact assetOk_insert_pre rfl ha0 hcert hp hpc

theorem stInv_store (now : Nat) (arg : StoreArg) (s s' : St)
    (hs : stInv s = true) (h : store now arg s = .ok s') : stInv s' = true := by
  rw [store] at h
  cases harg : arg.sha256 with
  | some ph =>
    rw [harg] at h
    simp only [] at h
    by_cases hh : hash_bytes arg.content ≠ ph
    · rw [if_pos hh] at h
      cases h
    · rw [if_neg hh] at h
      cases h
      exact stInv_store_write now arg s hs
  | none =>
    rw [harg] at h
    simp only [] at h
    cases h
    exact stInv_store_write now arg s hs

theorem stInv_set_content_write (now : Nat) (arg : SetAssetContentArguments)
    (a : Asset) (cs : List Chunk) (sha : Hash) (sb : St)
    (hsb : stInv sb = true) (ha : lookupA arg.key sb.assets = some a) :
    stInv (set_content_write now arg a cs sha sb) = true := by
  refine stInv_insert_write arg.key { a with encodings := insertA arg.content_encoding (set_content_encoding now cs sha) a.encodings } sb _ hsb ?_ rfl rfl
  intro pn pe hp hpc
  refine assetOk_insert_pre rfl (stInv_lookup hsb ha) ?_ hp hpc
  intro hc
  simp [set_content_encoding] at hc

theorem stInv_set_content (now : Nat) (arg : SetAssetContentArguments)
    (s s' : St) (hs : stInv s = true)
    (h : do_set_asset_content now arg s = .ok s') : stInv s' = true := by
  rw [do_set_asset_content] at h
  by_cases hne : arg.chunk_ids.isEmpty = true
  · rw [if_pos hne] at h
    cases h
  · rw [if_neg hne] at h
    cases hl : lookupA arg.key s.assets with
    | none =>
      rw [hl] at h
      simp only [] at h
      cases h
    | some asset =>
      rw [hl] at h
      simp only [] at h
      cases htk : takeChunks arg.chunk_ids s.chunks with
      | error e =>
        rw [htk] at h
        simp only [bind, Except.bind] at h
        cases h
      | ok pr =>
        cases pr with
        | mk cs m2 =>
          rw [htk] at h
          simp only [bind, Except.bind] at h
          have hsb : stInv ({ s with chunks := m2 } : St) = true := by
            rw [stInv_fields_congr ({ s with chunks := m2 } : St) s rfl rfl]
            exact hs
          cases harg : arg.sha256 with
          | some bytes =>
            rw [harg] at h
            simp only [] at h
            cases h
            exact stInv_set_content_write now arg asset cs bytes _ hsb hl
          | none =>
            rw [harg] at h
            have htree : lookupA arg.key
                (set_chunks_to_tree arg.key (buildChunks 0 cs)
                  { s with chunks := m2 }).chunk_hashes
                = some (addChunkHashes ((lookupA arg.key s.chunk_hashes).getD []) 0
                    (buildChunks 0 cs)) := by
              show lookupA arg.key
                  (insertA arg.key
                    (addChunkHashes ((lookupA arg.key s.chunk_hashes).getD []) 0
                      (buildChunks 0 cs))
                    s.chunk_hashes)
                = _
              exact lookupA_insertA_self _ _ _
            rw [htree] at h
            simp only [] at h
            cases h
            have hsb2 : stInv (set_chunks_to_tree arg.key (buildChunks 0 cs)
                ({ s with chunks := m2 } : St)) = true := by
              rw [stInv_fields_congr (set_chunks_to_tree arg.key (buildChunks 0 cs) ({ s with chunks := m2 } : St)) s rfl rfl]
              exact hs
            exact stInv_set_content_write now arg asset cs _ _ hsb2 hl

theorem stInv_unset (arg : UnsetAssetContentArguments) (s s' : St)
    (hs : stInv s = true) (h : do_unset_asset_content arg s = .ok s') :
    stInv s' = true := by
  rw [do_unset_asset_content] at h
  cases hl : lookupA arg.key s.assets with
  | none =>
    rw [hl] at h
    cases h
  | some asset =>
    rw [hl] at h
    simp only [] at h
    by_cases hi : (lookupA arg.content_encoding asset.encodings).isSome = true
    · rw [if_pos hi] at h
      cases h
      refine stInv_insert_write arg.key
        { asset with encodings := eraseA arg.content_encoding asset.encodings }
        s _ hs ?_ rfl rfl
      intro pn pe hp hpc
      exact assetOk_erase_pre rfl (stInv_lookup hs hl) hp hpc
    · rw [if_neg hi] at h
      cases h
      exact hs

theorem stInv_delete (arg : DeleteAssetArguments) (s : St)
    (hs : stInv s = true) : stInv (do_delete_asset arg s) = true := by
  simp only [stInv, List.all_eq_true]
  intro p hp
  have hp2 : p ∈ eraseA arg.key s.assets := hp
  have hm := List.mem_filter.mp hp2
  have hpk : p.1 ≠ arg.key := by simpa using hm.2
  have hok : assetOk s.asset_hashes p.1 p.2 = true := by
    simp only [stInv, List.all_eq_true] at hs
    exact hs p hm.1
  show assetOk (eraseA arg.key s.asset_hashes) p.1 p.2 = true
  rw [assetOk_tree_congr (lookupA_eraseA_ne p.1 arg.key s.asset_hashes hpk)]
  exact hok

theorem stInv_create_asset (arg : CreateAssetArguments) (s s' : St)
    (hs : stInv s = true) (h : do_create_asset arg s = .ok s') :
    stInv s' = true := by
  rw [do_create_asset] at h
  cases hl : lookupA arg.key s.assets with
  | some asset =>
    rw [hl] at h
    simp only [] at h
    by_cases hct : asset.content_type ≠ arg.content_type
    · rw [if_pos hct] at h
      cases h
    · rw [if_neg hct] at h
      cases h
      exact hs
  | none =>
    rw [hl] at h
    simp only [] at h
    cases h
    simp only [stInv, List.all_eq_true]
    intro p hp
    have hp2 : p ∈ insertA arg.key
        ({ content_type := arg.content_type, encodings := [] } : Asset) s.assets := hp
    simp only [insertA] at hp2
    rcases List.mem_cons.mp hp2 with heq | hmem
    · subst heq
      exact assetOk_of_nil rfl
    · have hm := List.mem_filter.mp hmem
      simp only [stInv, List.all_eq_true] at hs
      exact hs p hm.1

theorem stInv_clear (s : St) : stInv (do_clear s) = true := rfl

theorem stInv_of_fields (s2 : St) (hs : stInv s2 = true) (s1 : St)
    (ha : s1.assets = s2.assets) (hh : s1.asset_hashes = s2.asset_hashes) :
    stInv s1 = true := by
  rw [stInv_fields_congr s1 s2 ha hh]
  exact hs

theorem stInv_create_batch (now : Nat) (s : St) (hs : stInv s = true) :
    stInv (create_batch now s).1 = true := by
  rw [stInv_fields_congr (create_batch now s).1 s rfl rfl]
  exact hs

theorem stInv_create_chunk (now : Nat) (arg : CreateChunkArg) (s : St)
    (p : St × Nat) (hs : stInv s = true) (h : create_chunk now arg s = .ok p) :
    stInv p.1 = true := by
  rw [create_chunk] at h
  cases hl : lookupA arg.batch_id s.batches with
  | none =>
    rw [hl] at h
    cases h
  | some b =>
    rw [hl] at h
    simp only [] at h
    cases h
    apply stInv_of_fields s hs <;> rfl

theorem stInv_applyBatchOp (now : Nat) (op : BatchOperation) (s s' : St)
    (hs : stInv s = true) (h : applyBatchOp now op s = .ok s') :
    stInv s' = true := by
  cases op with
  | CreateAsset a => exact stInv_create_asset a s s' hs h
  | SetAssetContent a => exact stInv_set_content now a s s' hs h
  | UnsetAssetContent a => exact stInv_unset a s s' hs h
  | DeleteAsset a =>
    cases h
    exact stInv_delete a s hs
  | Clear =>
    cases h
    exact stInv_clear s

theorem stInv_applyBatchOps (now : Nat) (ops : List BatchOperation) :
    ∀ (s s' : St), stInv s = true → applyBatchOps now ops s = .ok s' →
      stInv s' = true := by
  induction ops with
  | nil =>
    intro s s' hs h
    cases h
    exact hs
  | cons op rest ih =>
    intro s s' hs h
    rw [applyBatchOps] at h
    cases hop : applyBatchOp now op s with
    | error e =>
      rw [hop] at h
      simp only [bind, Except.bind] at h
      cases h
    | ok s1 =>
      rw [hop] at h
      simp only [bind, Except.bind] at h
      exact ih s1 s' (stInv_applyBatchOp now op s s1 hs hop) h

theorem stInv_commit (now : Nat) (arg : CommitBatchArguments) (s s' : St)
    (hs : stInv s = true) (h : commit_batch now arg s = .ok s') :
    stInv s' = true := by
  rw [commit_batch] at h
  cases hops : applyBatchOps now arg.operations s with
  | error e =>
    rw [hops] at h
    simp only [bind, Except.bind] at h
    cases h
  | ok s1 =>
    rw [hops] at h
    simp only [bind, Except.bind, pure, Except.pure] at h
    cases h
    apply stInv_of_fields s1 (stInv_applyBatchOps now arg.operations s s1 hs hops) <;> rfl

theorem stInv_applyMut (op : MutOp) (s s' : St) (hs : stInv s = true)
    (h : applyMut op s = .ok s') : stInv s' = true := by
  cases op with
  | storeM now arg => exact stInv_store now arg s s' hs h
  | createAssetM arg => exact stInv_create_asset arg s s' hs h
  | setAssetContentM now arg => exact stInv_set_content now arg s s' hs h
  | unsetAssetContentM arg => exact stInv_unset arg s s' hs h
  | deleteAssetM arg =>
    cases h
    exact stInv_delete arg s hs
  | clearM =>
    cases h
    exact stInv_clear s
  | createBatchM now =>
    cases h
    exact stInv_create_batch now s hs
  | createChunkM now arg =>
    have h2 : (create_chunk now arg s).map (fun p => p.1) = .ok s' := h
    cases hcc : create_chunk now arg s with
    | error e =>
      rw [hcc] at h2
      simp only [Except.map] at h2
      cases h2
    | ok p =>
      rw [hcc] at h2
      simp only [Except.map] at h2
      cases h2
      exact stInv_create_chunk now arg s p hs hcc
  | commitBatchM now arg => exact stInv_commit now arg s s' hs h

theorem stInv_runOps (ops : List MutOp) :
    ∀ (s s' : St), stInv s = true → runOps ops s = .ok s' → stInv s' = true := by
  induction ops with
  | nil =>
    intro s s' hs h
    cases h
    exact hs
  | cons op rest ih =>
    intro s s' hs h
    rw [runOps] at h
    cases hop : applyMut op s with
    | error e =>
      rw [hop] at h
      simp only [bind, Except.bind] at h
      cases h
    | ok s1 =>
      rw [hop] at h
      simp only [bind, Except.bind] at h
      exact ih s1 s' (stInv_applyMut op s s1 hs hop) h

theorem stInv_init (creator : Principal) : stInv (init creator) = true := rfl

/-- The per-asset loop of `post_upgrade` establishes the invariant for every
processed asset and changes the asset-hash tree only at the processed keys. -/
theorem processAssets_ok (lst : List (String × Asset)) :
    ∀ (s : St), keysND lst = true →
      (∀ p ∈ (processAssets lst s).1,
        assetOk (processAssets lst s).2.asset_hashes p.1 p.2 = true) ∧
      (∀ k', lookupA k' lst = none →
        lookupA k' (processAssets lst s).2.asset_hashes
          = lookupA k' s.asset_hashes) := by
  induction lst with
  | nil =>
    intro s _
    exact ⟨fun p hp => absurd hp (List.not_mem_nil p), fun k' _ => rfl⟩
  | cons q rest ih =>
    intro s hnd
    cases q with
    | mk k a =>
      rw [keysND, Bool.and_eq_true] at hnd
      have hknone : lookupA k rest = none := by
        have hn1 := hnd.1
        cases hlk : lookupA k rest with
        | none => rfl
        | some x =>
          rw [hlk] at hn1
          simp at hn1
      have hpre : ∀ pn pe,
          priorityFirst ({ a with encodings := clearFlags a.encodings } : Asset).encodings
            = some (pn, pe) →
          pe.certified = true →
          assetOk s.asset_hashes k { a with encodings := clearFlags a.encodings } = true := by
        intro pn pe hp hpc
        exfalso
        have hpcl : priorityFirst (clearFlags a.encodings) = some (pn, pe) := hp
        rw [priorityFirst_clearFlags] at hpcl
        cases hpa : priorityFirst a.encodings with
        | none =>
          rw [hpa] at hpcl
          cases hpcl
        | some p0 =>
          rw [hpa] at hpcl
          simp only [Option.map_some', Option.some.injEq] at hpcl
          have hpe : pe = stripCert p0.2 := (congrArg Prod.snd hpcl).symm
          rw [hpe] at hpc
          simp [stripCert] at hpc
      obtain ⟨h1, h2, h3⟩ :=
        on_asset_change_ok k { a with encodings := clearFlags a.encodings } s hpre
      obtain ⟨ih1, ih2⟩ :=
        ih (on_asset_change k { a with encodings := clearFlags a.encodings } s).2 hnd.2
      constructor
      · intro p hp
        have hp2 : p ∈ (k, (on_asset_change k
              { a with encodings := clearFlags a.encodings } s).1) ::
            (processAssets rest (on_asset_change k
              { a with encodings := clearFlags a.encodings } s).2).1 := hp
        rcases List.mem_cons.mp hp2 with heq | hmem
        · subst heq
          show assetOk (processAssets rest (on_asset_change k
              { a with encodings := clearFlags a.encodings } s).2).2.asset_hashes
            k (on_asset_change k
              { a with encodings := clearFlags a.encodings } s).1 = true
          rw [assetOk_tree_congr (ih2 k hknone)]
          exact h1
        · exact ih1 p hmem
      · intro k' hk'
        rw [lookupA] at hk'
        by_cases hkk : k = k'
        · rw [if_pos hkk] at hk'
          cases hk'
        · rw [if_neg hkk] at hk'
          show lookupA k' (processAssets rest (on_asset_change k
              { a with encodings := clearFlags a.encodings } s).2).2.asset_hashes = _
          rw [ih2 k' hk']
          exact h2 k' (fun he => hkk he.symm)

theorem stInv_post_upgrade (ss : StableState) (s : St)
    (hnd : keysND ss.stable_assets = true) : stInv (post_upgrade ss s) = true := by
  obtain ⟨h1, _⟩ := processAssets_ok ss.stable_assets
    { do_clear s with authorized := ss.authorized, assets := ss.stable_assets } hnd
  simp only [stInv, List.all_eq_true]
  intro p hp
  exact h1 p hp

/-- C1 amended: after every completed mutating operation (any sequence of
store, create_asset, set_asset_content, unset_asset_content, delete_asset,
clear, create_batch, create_chunk, commit_batch from the initial state, and
post_upgrade from a stable state with distinct keys), every asset has at
most one encoding with `certified = true`; when one does, it is the
highest-priority encoding present under the fixed order
`[identity, gzip, compress, deflate, br]` (an arbitrary present encoding
when none of the five names is present), and the asset-hash tree has an
entry for the asset's key — but that entry is *not* necessarily the
certified encoding's `sha256` digest (see the counterexample). -/
theorem C1_certification_invariant :
    (∀ (creator : Principal) (ops : List MutOp) (s' : St),
      runOps ops (init creator) = .ok s' → stInv s' = true) ∧
    (∀ (ss : StableState) (s : St), keysND ss.stable_assets = true →
      stInv (post_upgrade ss s) = true) := by
  constructor
  · intro creator ops s' h
    exact stInv_runOps ops (init creator) s' (stInv_init creator) h
  · intro ss s hnd
    exact stInv_post_upgrade ss s hnd

/-- C1 witness: the invariant theorem instantiated on a concrete one-store
log and a concrete upgrade. -/
theorem C1_witness :
    (runOps ops1w (init 1) = .ok s1w ∧ stInv s1w = true) ∧
    (keysND ssw.stable_assets = true ∧ stInv (post_upgrade ssw emptySt) = true) :=
  ⟨⟨by decide, C1_certification_invariant.1 1 ops1w s1w (by decide)⟩,
   ⟨by decide, C1_certification_invariant.2 ssw emptySt (by decide)⟩⟩

end CertifiedAssets
